import Mathlib

/-
Verification of the configuration object model of this repository.

The core under verification is src/model/enc/config_base.py: a dataclass
BaseConfig whose instances form a tree of "Config Nodes".  A node's field
map (Python: self.__dict__, an insertion-ordered dict with unique string
keys) is embedded as an association list `Config := List (String × Value)`.
Field values are embedded by the inductive `Value`:

  * int / float / str / bool / null : JSON-representable scalars
    (floats are carried as symbolic rationals: the config code never
    computes with them, it only moves them around);
  * list / tuple / dict : Python lists, tuples and string-keyed dicts
    (tuples are JSON-serializable but parse back as lists — the one
    JSON-unstable value class the repository itself uses);
  * opq : any value json.dumps rejects with TypeError (nn modules, enum
    instances, sets, ...), identified only by a tag;
  * node : a nested BaseConfig instance (its own field map).

Two levels of embedding are used.  The pure level above suffices for the
value-level contracts of clone/inherit/propagate/save/load/from_dict/
as_dict_jsonable.  Claims about object identity and shared mutable state
(deep copy, in-place recursive update) are settled against a second,
heap-level embedding at the end of the definitions: objects live at
numeric addresses and node-valued fields are references (`HVal.ref`),
mirroring Python object semantics.

src/model/enc/choices.py contributes one piece of logic, the activation
dispatch Activation.get_act, embedded over the string values of the enum
tags.
-/

/-- Embedded Python value stored in a Config Node field (pure, tree level). -/
inductive Value where
  | int (n : Int)
  | float (q : Rat)
  | str (s : String)
  | bool (b : Bool)
  | null
  | list (xs : List Value)
  | tuple (xs : List Value)
  | dict (es : List (String × Value))
  | opq (tag : Nat)
  | node (fields : List (String × Value))

/-- A Config Node's field map: Python's `self.__dict__` (insertion order
    preserved, keys unique in any map produced by Python). -/
abbrev Config := List (String × Value)

/-- First-occurrence lookup in a keyed list — the read semantics of a
    Python dict embedded as an association list. -/
def getk {κ α : Type} [DecidableEq κ] : List (κ × α) → κ → Option α
  | [], _ => none
  | (k, v) :: rest, q => if k = q then some v else getk rest q

/-- Update the first binding of a key, or append a new one — the write
    semantics of `d[k] = v` / `setattr` on the embedded dict. -/
def setk {κ α : Type} [DecidableEq κ] : List (κ × α) → κ → α → List (κ × α)
  | [], q, w => [(q, w)]
  | (k, v) :: rest, q, w =>
    if k = q then (q, w) :: rest else (k, v) :: setk rest q w

/-- Key list of a field map, in order (`self.__dict__.keys()`). -/
def keys {κ α : Type} (l : List (κ × α)) : List κ := l.map Prod.fst

/-- Whether a value is a nested Config Node (`isinstance(v, BaseConfig)`). -/
def Value.isNode : Value → Bool
  | .node _ => true
  | _ => false

/-- BaseConfig.inherit (config_base.py lines 14-22): for every key shared
    by self and another, `setattr(self, k, getattr(another, k))`.  Since
    keys are unique and each shared key is set exactly once, the loop over
    the common-key set is, field for field, this map over self's fields:
    a field whose name `another` also declares takes `another`'s value,
    every other field keeps its own. -/
def inherit (self another : Config) : Config :=
  self.map (fun f =>
    match getk another f.1 with
    | some w => (f.1, w)
    | none => f)

/-- One iteration of the propagate loop at field k of the current self:
    when the field holds a Config Node fs, replace it by F fs cur (F is
    instantiated with inherit-then-recurse below); any other field is
    left alone.  Factoring the loop body over F keeps `propagate` plainly
    structural in its fuel. -/
def cstep (F : Config → Config → Config) (cur : Config) (k : String) : Config :=
  match getk cur k with
  | some (.node fs) => setk cur k (.node (F fs cur))
  | _ => cur

/-- BaseConfig.propagate (config_base.py lines 24-32), with explicit fuel:
    for each field of self holding a Config Node, `v.inherit(self)` then
    `v.propagate()`, reading the current state of self at each step (the
    Python loop mutates the children in place, so a later child inherits
    from a parent whose earlier node fields are already fully propagated).
    Python's recursion has no depth bound; the fuel only truncates below
    the actual node depth, and every theorem instantiates it high enough
    to cover the tree it talks about. -/
def propagate : Nat → Config → Config
  | 0, c => c
  | n + 1, c =>
    (keys c).foldl (cstep (fun fs cur => propagate n (inherit fs cur))) c

/-- jsonable (config_base.py lines 93-98): does json.dumps accept the
    value?  Scalars and null are accepted; lists, tuples and
    string-keyed dicts are accepted when all their members are (a tuple
    is serialized as a JSON array); BaseConfig instances and opaque
    objects raise TypeError. -/
def jsonable : Value → Bool
  | .int _ => true
  | .float _ => true
  | .str _ => true
  | .bool _ => true
  | .null => true
  | .opq _ => false
  | .node _ => false
  | .list [] => true
  | .list (x :: xs) => jsonable x && jsonable (.list xs)
  | .tuple [] => true
  | .tuple (x :: xs) => jsonable x && jsonable (.tuple xs)
  | .dict [] => true
  | .dict ((_, v) :: es) => jsonable v && jsonable (.dict es)

/-- BaseConfig.as_dict_jsonable (config_base.py lines 73-89): walk the
    fields in order; a node field becomes the recursive serialization (a
    plain dict), a jsonable field is kept as is, anything else is dropped
    silently. -/
def as_dict_jsonable : Config → Config
  | [] => []
  | (k, .node fs) :: rest => (k, .dict (as_dict_jsonable fs)) :: as_dict_jsonable rest
  | (k, v) :: rest =>
    if jsonable v then (k, v) :: as_dict_jsonable rest else as_dict_jsonable rest

/-- The methods BaseConfig itself defines — class attributes `hasattr`
    also sees beyond the declared fields. -/
def baseAttrs : List String :=
  ["clone", "inherit", "propagate", "save", "load", "from_dict", "as_dict_jsonable"]

/-- Double-underscore names.  Every attribute a BaseConfig instance
    inherits beyond its fields and the seven methods above — the
    object/dataclass attributes such as __init__, __eq__,
    __dataclass_fields__, a set that varies with the Python version —
    is a dunder name, so the model treats every dunder-shaped key as a
    class attribute.  This over-approximates hasattr soundly: whenever
    the model takes the unknown-key branch below, Python takes it too
    (the only divergence is a dunder key that happens not to exist in
    the running version, where Python diagnoses an extra key while the
    model reaches the KeyError branch like any other attribute-named
    key). -/
def isDunder (k : String) : Bool :=
  k.toList.take 2 == [Char.ofNat 95, Char.ofNat 95] &&
    k.toList.reverse.take 2 == [Char.ofNat 95, Char.ofNat 95]

/-- `hasattr(self, k)`: true for declared fields and for class
    attributes — the seven methods plus the inherited dunder
    attributes.  The non-field attributes are what make from_dict reach
    `self.__dict__[k]` with a key absent from __dict__, a KeyError. -/
def hasattrC (c : Config) (k : String) : Bool :=
  (getk c k).isSome || baseAttrs.contains k || isDunder k

/-- Exceptions from_dict can raise. -/
inductive PyErr where
  | valueError (msg : String)
  | keyError (k : String)
  | attributeError
  | invalidRef
  deriving DecidableEq

/-- Result of a from_dict call: the final field map, the diagnostics
    printed in order, and the exception that aborted the loop, if any. -/
structure FDResult where
  cfg : Config
  logs : List String
  err : Option PyErr

/-- BaseConfig.from_dict (config_base.py lines 55-71).  For each key of
    the input mapping in order: an unknown key (not even a method name)
    raises ValueError under strict, else prints a diagnostic and is
    skipped; a key that hasattr accepts but __dict__ lacks (a method
    name) raises KeyError; a node-valued field recurses with
    `field.from_dict(value)` — the strict flag is NOT forwarded, the
    recursive call runs with the default strict=False — which itself
    raises AttributeError when the value is not a mapping (`v.items()`);
    any other field is assigned the raw value.  An exception stops the
    loop, leaving the updates already made in place.  The dict-valued and
    non-dict-valued input entries are split into two top-level match arms
    only so the recursion into the nested entries is visibly decreasing;
    the logic of the two arms is identical to the source.  (The source
    message is "loading extra 'k'"; the model drops the quote marks.) -/
def from_dict (c : Config) (data : List (String × Value)) (strict : Bool) : FDResult :=
  match data with
  | [] => ⟨c, [], none⟩
  | (k, Value.dict es) :: rest =>
    if hasattrC c k then
      match getk c k with
      | some (.node fs) =>
        let r := from_dict fs es false
        match r.err with
        | some e => ⟨setk c k (.node r.cfg), r.logs, some e⟩
        | none =>
          let r₂ := from_dict (setk c k (.node r.cfg)) rest strict
          ⟨r₂.cfg, r.logs ++ r₂.logs, r₂.err⟩
      | some _ => from_dict (setk c k (Value.dict es)) rest strict
      | none => ⟨c, [], some (.keyError k)⟩
    else
      if strict then ⟨c, [], some (.valueError ("loading extra " ++ k))⟩
      else
        let r := from_dict c rest strict
        ⟨r.cfg, ("loading extra " ++ k) :: r.logs, r.err⟩
  | (k, v) :: rest =>
    if hasattrC c k then
      match getk c k with
      | some (.node _) => ⟨c, [], some .attributeError⟩
      | some _ => from_dict (setk c k v) rest strict
      | none => ⟨c, [], some (.keyError k)⟩
    else
      if strict then ⟨c, [], some (.valueError ("loading extra " ++ k))⟩
      else
        let r := from_dict c rest strict
        ⟨r.cfg, ("loading extra " ++ k) :: r.logs, r.err⟩

mutual

/-- The normalization json.dump followed by json.load performs on a
    serialized value: a tuple is written as a JSON array and parses
    back as a list (recursively inside lists, tuples and dict values);
    every other value in the jsonable subset parses back as itself.
    (Python has two further unstable jsonable classes the embedding
    does not carry: NaN floats, which parse back to a NaN that is not
    equal to itself, and non-string dict keys, which are coerced to
    strings.) -/
def vnorm : Value → Value
  | .int n => .int n
  | .float q => .float q
  | .str s => .str s
  | .bool b => .bool b
  | .null => .null
  | .opq t => .opq t
  | .node fs => .node fs
  | .list xs => .list (vnormL xs)
  | .tuple xs => .list (vnormL xs)
  | .dict es => .dict (vnormD es)

/-- Normalize the elements of a JSON array. -/
def vnormL : List Value → List Value
  | [] => []
  | x :: xs => vnorm x :: vnormL xs

/-- Normalize the values of a JSON object. -/
def vnormD : List (String × Value) → List (String × Value)
  | [] => []
  | (k, v) :: es => (k, vnorm v) :: vnormD es

end

mutual

/-- A value is JSON-stable when dump-then-parse returns it unchanged:
    no tuple anywhere inside it. -/
def stable : Value → Bool
  | .tuple _ => false
  | .list xs => stableL xs
  | .dict es => stableD es
  | _ => true

/-- All elements JSON-stable. -/
def stableL : List Value → Bool
  | [] => true
  | x :: xs => stable x && stableL xs

/-- All object values JSON-stable. -/
def stableD : List (String × Value) → Bool
  | [] => true
  | (_, v) :: es => stable v && stableD es

end

/-- Every field of the node holds a JSON-stable value, recursively
    through nested nodes. -/
def allStable : Config → Bool
  | [] => true
  | (_, .node fs) :: rest => allStable fs && allStable rest
  | (_, v) :: rest => stable v && allStable rest

/-- Errors of the modelled file system operations. -/
inductive IOErr where
  | fileNotFound
  | fileExists
  deriving DecidableEq

/-- File system model for save/load: a path is its list of components
    (last component the file name), the store keeps the set of existing
    directories and, for each file, the JSON document its text denotes
    (what json.load returns — save applies the dump/parse normalization
    vnormD before storing, so the text encoding round-trip is modelled
    faithfully rather than collapsed to the identity). -/
structure FS where
  dirs : List (List String)
  files : List (List String × Config)

/-- `os.path.dirname`: all components but the last; `[]` plays the role
    of the empty string for a path with no directory component. -/
def dirname (p : List String) : List String := p.dropLast

/-- `os.path.exists(dirname)`: the empty dirname never exists (Python:
    os.path.exists("") is False); otherwise membership in the directory
    set. -/
def path_exists (fs : FS) (d : List String) : Bool :=
  !d.isEmpty && fs.dirs.contains d

/-- `os.makedirs(d)`: raises FileNotFoundError on the empty path (Python:
    os.makedirs("") fails), FileExistsError if the directory exists, and
    otherwise records the directory (intermediate parents are not
    tracked: nothing in the model reads them). -/
def makedirs (fs : FS) (d : List String) : Except IOErr FS :=
  if d.isEmpty then .error .fileNotFound
  else if fs.dirs.contains d then .error .fileExists
  else .ok { fs with dirs := d :: fs.dirs }

/-- BaseConfig.save (config_base.py lines 34-44): if the dirname does not
    exist, create it with makedirs; then serialize with as_dict_jsonable
    and write as JSON text.  The write itself succeeds exactly when the
    dirname exists or is empty (a bare filename written to the working
    directory).  The file stores the document the JSON text denotes —
    vnormD applied to the as_dict_jsonable output — so that a later
    json.load returns exactly the stored value: the dump/parse coercion
    (tuple to list) is applied at write time. -/
def save (fs : FS) (p : List String) (c : Config) : Except IOErr FS :=
  let d := dirname p
  match (if !(path_exists fs d) then makedirs fs d else .ok fs) with
  | .error e => .error e
  | .ok fs₁ =>
    if d.isEmpty || fs₁.dirs.contains d then
      .ok { fs₁ with files := (p, vnormD (as_dict_jsonable c)) :: fs₁.files }
    else .error .fileNotFound

/-- BaseConfig.load (config_base.py lines 46-53): read the JSON document
    at the path and apply it with from_dict (non-strict, the default). -/
def load (fs : FS) (p : List String) (c : Config) : Except IOErr FDResult :=
  match getk fs.files p with
  | none => .error .fileNotFound
  | some j => .ok (from_dict c j false)

/-- Well-formedness of a field map as Python produces it: keys unique at
    every level, including inside nested nodes. -/
def wfc : Config → Bool
  | [] => true
  | (k, .node fs) :: rest => !((keys rest).contains k) && wfc fs && wfc rest
  | (k, _) :: rest => !((keys rest).contains k) && wfc rest

/-- Every field of the node is JSON-representable, recursively: node
    fields are checked recursively, every other field must be jsonable. -/
def allJsonable : Config → Bool
  | [] => true
  | (_, .node fs) :: rest => allJsonable fs && allJsonable rest
  | (_, v) :: rest => jsonable v && allJsonable rest

/-- Two nodes are instances of the same concrete config class: same field
    names in the same declaration order, with node-valued fields in the
    same positions and recursively of the same class.  (A dataclass fixes
    its fields and their order, so a freshly constructed default instance
    of the original's type matches it in exactly this sense.) -/
def sameShape : Config → Config → Bool
  | [], [] => true
  | (k, .node fs) :: r, (k₂, .node gs) :: r₂ =>
    k == k₂ && sameShape fs gs && sameShape r r₂
  | (_, .node _) :: _, _ => false
  | _, (_, .node _) :: _ => false
  | (k, _) :: r, (k₂, _) :: r₂ => k == k₂ && sameShape r r₂
  | _, _ => false

/-- Activation tags, by enum value (choices.py lines 209-214). -/
def act_tags : List String := ["none", "relu", "lrelu", "silu", "tanh"]

/-- The stateless elementwise transformations Activation.get_act hands
    out, one symbol per torch module constructed; the leaky variant
    carries its fixed negative slope (0.2). -/
inductive ActKind where
  | identity
  | relu
  | lrelu (negative_slope : Rat)
  | silu
  | tanh
  deriving DecidableEq

/-- Activation.get_act (choices.py lines 216-228): the if/elif chain over
    the closed tag set, with the final else raising NotImplementedError. -/
def get_act (tag : String) : Except String ActKind :=
  if tag = "none" then .ok .identity
  else if tag = "relu" then .ok .relu
  else if tag = "lrelu" then .ok (.lrelu (1 / 5))
  else if tag = "silu" then .ok .silu
  else if tag = "tanh" then .ok .tanh
  else .error "NotImplementedError"

/-
Heap-level embedding.  Python objects live at addresses; a BaseConfig
field holding another BaseConfig holds a reference.  This level settles
the claims about deep copies and in-place updates, which are invisible
to the pure tree embedding.
-/

/-- Heap-level field value: scalars and containers as before, but a
    nested Config Node is a reference to an object address. -/
inductive HVal where
  | int (n : Int)
  | float (q : Rat)
  | str (s : String)
  | bool (b : Bool)
  | null
  | list (xs : List HVal)
  | tuple (xs : List HVal)
  | dict (es : List (String × HVal))
  | opq (tag : Nat)
  | ref (a : Nat)

/-- A heap object: the field map of one BaseConfig instance. -/
abbrev HObj := List (String × HVal)

/-- Whether a heap value is a reference to a nested Config Node
    (`isinstance(v, BaseConfig)` at the heap level). -/
def HVal.isRef : HVal → Bool
  | .ref _ => true
  | _ => false

/-- The heap: allocated objects by address, plus the next fresh address. -/
structure Heap where
  objs : List (Nat × HObj)
  next : Nat

/-- Dereference an address. -/
def Heap.get (h : Heap) (a : Nat) : Option HObj := getk h.objs a

/-- Replace the object stored at an address. -/
def Heap.setObj (h : Heap) (a : Nat) (o : HObj) : Heap :=
  { h with objs := setk h.objs a o }

/-- Every allocated address is below the allocation counter. -/
def wfH (h : Heap) : Bool :=
  h.objs.all (fun e => decide (e.1 < h.next))

/-- Mutate one field of the object at an address (plain `setattr` on a
    live object; no-op on a dangling address). -/
def setFieldH (h : Heap) (x : Nat) (k : String) (v : HVal) : Heap :=
  match h.get x with
  | none => h
  | some o => h.setObj x (setk o k v)

/-- Read a list of heap values as pure values through a reader for the
    elements. -/
def readL (r : HVal → Option Value) : List HVal → Option (List Value)
  | [] => some []
  | x :: xs =>
    match r x, readL r xs with
    | some y, some ys => some (y :: ys)
    | _, _ => none

/-- Read a keyed list of heap values through a reader for the values. -/
def readF (r : HVal → Option Value) :
    List (String × HVal) → Option (List (String × Value))
  | [] => some []
  | (k, x) :: xs =>
    match r x, readF r xs with
    | some y, some ys => some ((k, y) :: ys)
    | _, _ => none

/-- Extract the pure value denoted by a heap value, following references;
    the fuel bounds the total extraction work and fails only when the
    reachable object graph is deeper than the fuel (or cyclic). -/
def readV : Nat → Heap → HVal → Option Value
  | 0, _, _ => none
  | n + 1, h, v =>
    match v with
    | .int m => some (.int m)
    | .float q => some (.float q)
    | .str s => some (.str s)
    | .bool b => some (.bool b)
    | .null => some .null
    | .opq m => some (.opq m)
    | .list xs => (readL (readV n h) xs).map .list
    | .tuple xs => (readL (readV n h) xs).map .tuple
    | .dict es => (readF (readV n h) es).map .dict
    | .ref a =>
      match h.get a with
      | none => none
      | some o => (readF (readV n h) o).map .node

/-- Extract the whole tree of the Config Node at an address. -/
def readC (n : Nat) (h : Heap) (a : Nat) : Option Config :=
  match readV n h (.ref a) with
  | some (.node fs) => some fs
  | _ => none

mutual

/-- Write a pure value into the heap, allocating fresh objects for nested
    nodes (recursively, children first) — the copying step of
    copy.deepcopy on a tree-shaped object graph. -/
def writeV : Heap → Value → Heap × HVal
  | h, .int n => (h, .int n)
  | h, .float q => (h, .float q)
  | h, .str s => (h, .str s)
  | h, .bool b => (h, .bool b)
  | h, .null => (h, .null)
  | h, .opq n => (h, .opq n)
  | h, .list xs =>
    let p := writeList h xs
    (p.1, .list p.2)
  | h, .tuple xs =>
    let p := writeList h xs
    (p.1, .tuple p.2)
  | h, .dict es =>
    let p := writeFields h es
    (p.1, .dict p.2)
  | h, .node fs =>
    let p := writeFields h fs
    (⟨(p.1.next, p.2) :: p.1.objs, p.1.next + 1⟩, .ref p.1.next)

/-- Write the fields of an object, threading the heap left to right. -/
def writeFields : Heap → List (String × Value) → Heap × List (String × HVal)
  | h, [] => (h, [])
  | h, (k, v) :: rest =>
    let p := writeV h v
    let q := writeFields p.1 rest
    (q.1, (k, p.2) :: q.2)

/-- Write the elements of a list value, threading the heap. -/
def writeList : Heap → List Value → Heap × List HVal
  | h, [] => (h, [])
  | h, v :: rest =>
    let p := writeV h v
    let q := writeList p.1 rest
    (q.1, p.2 :: q.2)

end

/-- Allocate a fresh object graph for an extracted tree and return the
    address of its root. -/
def deepcopy (h : Heap) (t : Config) : Heap × Nat :=
  let p := writeFields h t
  (⟨(p.1.next, p.2) :: p.1.objs, p.1.next + 1⟩, p.1.next)

/-- BaseConfig.clone (config_base.py lines 10-12): `deepcopy(self)` — a
    fully fresh copy of the object graph reachable from the node, here
    factored as extraction of the pure tree followed by re-allocation. -/
def clone (fuel : Nat) (h : Heap) (a : Nat) : Option (Heap × Nat) :=
  (readC fuel h a).map (deepcopy h)

/-- `hasattr` at the heap level: fields, the seven methods, and the
    inherited dunder attributes (over-approximated by every
    dunder-shaped name, as in hasattrC). -/
def hasattrH (o : HObj) (k : String) : Bool :=
  (getk o k).isSome || baseAttrs.contains k || isDunder k

/-- Result of a heap-level from_dict call. -/
structure HRes where
  heap : Heap
  logs : List String
  err : Option PyErr

/-- BaseConfig.from_dict at the heap level, mutating the object at
    address a in place: identical control flow to the pure `from_dict`,
    but a node-valued field is a reference, and the recursive call
    mutates the referenced object — the field itself keeps pointing at
    the very same address throughout.  (The invalidRef error stands for
    a dangling self, which no Python execution produces.) -/
def fromDictH (h : Heap) (a : Nat) (data : List (String × HVal)) (strict : Bool) : HRes :=
  match data with
  | [] => ⟨h, [], none⟩
  | (k, HVal.dict es) :: rest =>
    match h.get a with
    | none => ⟨h, [], some .invalidRef⟩
    | some o =>
      if hasattrH o k then
        match getk o k with
        | some (.ref b) =>
          let r := fromDictH h b es false
          match r.err with
          | some e => ⟨r.heap, r.logs, some e⟩
          | none =>
            let r₂ := fromDictH r.heap a rest strict
            ⟨r₂.heap, r.logs ++ r₂.logs, r₂.err⟩
        | some _ => fromDictH (h.setObj a (setk o k (HVal.dict es))) a rest strict
        | none => ⟨h, [], some (.keyError k)⟩
      else
        if strict then ⟨h, [], some (.valueError ("loading extra " ++ k))⟩
        else
          let r := fromDictH h a rest strict
          ⟨r.heap, ("loading extra " ++ k) :: r.logs, r.err⟩
  | (k, v) :: rest =>
    match h.get a with
    | none => ⟨h, [], some .invalidRef⟩
    | some o =>
      if hasattrH o k then
        match getk o k with
        | some (.ref _) => ⟨h, [], some .attributeError⟩
        | some _ => fromDictH (h.setObj a (setk o k v)) a rest strict
        | none => ⟨h, [], some (.keyError k)⟩
      else
        if strict then ⟨h, [], some (.valueError ("loading extra " ++ k))⟩
        else
          let r := fromDictH h a rest strict
          ⟨r.heap, ("loading extra " ++ k) :: r.logs, r.err⟩

/-
Basic lemmas about the embedded dict operations.
-/

theorem getk_setk_self {κ α : Type} [DecidableEq κ] (l : List (κ × α)) (k : κ) (v : α) :
    getk (setk l k v) k = some v := by
  induction l with
  | nil => simp [getk, setk]
  | cons p rest ih =>
    by_cases h : p.1 = k
    · simp [setk, getk, h]
    · simp [setk, getk, h, ih]

theorem getk_setk_ne {κ α : Type} [DecidableEq κ] (l : List (κ × α)) (k q : κ) (v : α)
    (h : k ≠ q) : getk (setk l k v) q = getk l q := by
  induction l with
  | nil => simp [getk, setk, h]
  | cons p rest ih =>
    by_cases hp : p.1 = k
    · simp [setk, getk, hp, h]
    · simp only [setk, hp, if_false, getk]
      by_cases hq : p.1 = q <;> simp [hq, ih]

theorem mem_keys_of_getk {κ α : Type} [DecidableEq κ] {l : List (κ × α)} {k : κ} {v : α}
    (h : getk l k = some v) : k ∈ keys l := by
  induction l with
  | nil => simp [getk] at h
  | cons p rest ih =>
    by_cases hp : p.1 = k
    · simp [keys, hp.symm]
    · simp only [getk, hp, if_false] at h
      simp [keys] at ih ⊢
      right
      simpa [keys] using ih h

theorem getk_eq_none_of_not_mem {κ α : Type} [DecidableEq κ] {l : List (κ × α)} {k : κ}
    (h : k ∉ keys l) : getk l k = none := by
  induction l with
  | nil => simp [getk]
  | cons p rest ih =>
    simp only [keys, List.map_cons, List.mem_cons, not_or] at h
    have h1 : ¬ p.1 = k := fun hh => h.1 hh.symm
    simp only [getk, h1, if_false]
    exact ih (by simpa [keys] using h.2)

theorem keys_setk_of_mem {κ α : Type} [DecidableEq κ] (l : List (κ × α)) (k : κ) (v : α)
    (h : k ∈ keys l) : keys (setk l k v) = keys l := by
  induction l with
  | nil => simp [keys] at h
  | cons p rest ih =>
    by_cases hp : p.1 = k
    · simp [setk, hp, keys]
    · have hk : k ∈ keys rest := by
        simp only [keys, List.map_cons, List.mem_cons] at h
        rcases h with h | h
        · exact absurd h.symm hp
        · exact h
      simp only [setk, hp, if_false, keys, List.map_cons, List.cons.injEq, true_and]
      simpa [keys] using ih hk

theorem setk_self {κ α : Type} [DecidableEq κ] {l : List (κ × α)} {k : κ} {v : α}
    (h : getk l k = some v) : setk l k v = l := by
  induction l with
  | nil => simp [getk] at h
  | cons p rest ih =>
    by_cases hp : p.1 = k
    · simp only [getk, hp, if_pos rfl] at h
      cases p with
      | mk pk pv => simp_all [setk]
    · simp only [getk, hp, if_false] at h
      simp [setk, hp, ih h]

theorem inherit_cons (p : String × Value) (rest b : Config) :
    inherit (p :: rest) b =
      (match getk b p.1 with
        | some w => (p.1, w)
        | none => p) :: inherit rest b := rfl

theorem keys_inherit (a b : Config) : keys (inherit a b) = keys a := by
  induction a with
  | nil => rfl
  | cons p rest ih =>
    rw [inherit_cons]
    cases h : getk b p.1 <;> simp [keys, h] <;> simpa [keys] using ih

theorem getk_inherit (a b : Config) (k : String) :
    getk (inherit a b) k =
      match getk a k with
      | none => none
      | some v => match getk b k with
        | some w => some w
        | none => some v := by
  induction a with
  | nil => simp [inherit, getk]
  | cons p rest ih =>
    by_cases hp : p.1 = k
    · subst hp
      cases hb : getk b p.1 <;> simp [inherit, getk, hb]
    · cases h : getk b p.1 <;>
        simp [inherit, getk, hp, h] <;>
        simpa [inherit] using ih

/-- C2: after a.inherit(b), every field name declared by both takes b's
    (pre-call) value in a, every field of a not declared by b is
    unchanged, and no field is added or removed.  b itself is a read-only
    argument of the embedded function, and inherit is total — the source
    touches only `self.__dict__` on keys both sides own, so it modifies
    nothing of b and raises nothing; with disjoint schemas the common-key
    set is empty and the map below returns a unchanged. -/
theorem inherit_spec (a b : Config) :
    keys (inherit a b) = keys a ∧
    ∀ k : String, getk (inherit a b) k =
      match getk a k with
      | none => none
      | some v =>
        match getk b k with
        | some w => some w
        | none => some v :=
  ⟨keys_inherit a b, fun k => getk_inherit a b k⟩

/-
Lemmas about one pass of the propagate loop.
-/

theorem cstep_getk_ne (F : Config → Config → Config) (cur : Config) (k q : String)
    (h : k ≠ q) : getk (cstep F cur k) q = getk cur q := by
  unfold cstep
  split
  · exact getk_setk_ne _ _ _ _ h
  · rfl

theorem cstep_keys (F : Config → Config → Config) (cur : Config) (k : String) :
    keys (cstep F cur k) = keys cur := by
  unfold cstep
  split
  · next fs heq => exact keys_setk_of_mem _ _ _ (mem_keys_of_getk heq)
  · rfl

theorem cstep_stable (F : Config → Config → Config) (cur : Config) (k r : String)
    (w : Value) (hw : w.isNode = false) (h : getk cur r = some w) :
    getk (cstep F cur k) r = some w := by
  by_cases hk : k = r
  · subst hk
    unfold cstep
    rw [h]
    cases w <;> first | exact h | simp [Value.isNode] at hw
  · rw [cstep_getk_ne F cur k r hk]
    exact h

theorem foldl_cstep_keys (F : Config → Config → Config) (ks : List String) (cur : Config) :
    keys (ks.foldl (cstep F) cur) = keys cur := by
  induction ks generalizing cur with
  | nil => rfl
  | cons k ks ih =>
    simp only [List.foldl_cons]
    rw [ih, cstep_keys]

theorem foldl_cstep_stable (F : Config → Config → Config) (ks : List String) (cur : Config)
    (q : String) (v : Value) (hv : v.isNode = false) (h : getk cur q = some v) :
    getk (ks.foldl (cstep F) cur) q = some v := by
  induction ks generalizing cur with
  | nil => exact h
  | cons k ks ih =>
    simp only [List.foldl_cons]
    exact ih _ (cstep_stable F cur k q v hv h)

theorem foldl_cstep_skip (F : Config → Config → Config) (ks : List String) (cur : Config)
    (q : String) (h : q ∉ ks) : getk (ks.foldl (cstep F) cur) q = getk cur q := by
  induction ks generalizing cur with
  | nil => rfl
  | cons k ks ih =>
    simp only [List.mem_cons, not_or] at h
    simp only [List.foldl_cons]
    rw [ih _ h.2, cstep_getk_ne F cur k q (fun hh => h.1 hh.symm)]

/-- Where the loop meets the node field q holding fs, the current state
    of self is some mid whose keys are cur's and which agrees with cur on
    every non-node field; the loop leaves q holding F fs mid. -/
theorem foldl_cstep_process (F : Config → Config → Config) (ks : List String) (cur : Config)
    (q : String) (fs : Config) (hnd : ks.Nodup) (hmem : q ∈ ks)
    (hq : getk cur q = some (.node fs)) :
    ∃ mid, getk (ks.foldl (cstep F) cur) q = some (.node (F fs mid)) ∧
      keys mid = keys cur ∧
      (∀ r w, w.isNode = false → getk cur r = some w → getk mid r = some w) := by
  induction ks generalizing cur with
  | nil => cases hmem
  | cons k ks ih =>
    simp only [List.foldl_cons]
    by_cases hk : k = q
    · subst hk
      refine ⟨cur, ?_, rfl, fun r w _ h => h⟩
      have hstep : cstep F cur k = setk cur k (.node (F fs cur)) := by
        unfold cstep
        rw [hq]
      rw [hstep, foldl_cstep_skip F ks _ k (List.nodup_cons.mp hnd).1]
      exact getk_setk_self cur k _
    · have hq₂ : q ∈ ks := by
        rcases List.mem_cons.mp hmem with h | h
        · exact absurd h.symm hk
        · exact h
      obtain ⟨mid, h1, h2, h3⟩ :=
        ih (cstep F cur k) (List.nodup_cons.mp hnd).2 hq₂
          (by rw [cstep_getk_ne F cur k q hk]; exact hq)
      exact ⟨mid, h1, by rw [h2, cstep_keys],
        fun r w hw hr => h3 r w hw (cstep_stable F cur k r w hw hr)⟩

/-- C1: on a chain root → child → grandchild in which all three nodes
    declare the shared plain field "lr", a single propagate of the root
    (fuel 3 fully unfolds the three levels) overwrites the child's "lr"
    with the root's value and then the grandchild's with the child's
    already-overwritten value: both end up holding the root's vr,
    depth-first and top-down.  The chain is a genuine tree: the link
    field names s and t are private to their node (the hypotheses keep t
    out of the root's schema and s, t out of the lower schemas — exactly
    the configurations on which the unguarded Python recursion
    terminates), and key lists are duplicate-free as Python dicts are. -/
theorem propagate_chain_parent_wins
    (a b g : Config) (s t : String) (vr : Value)
    (ha : (keys a).Nodup) (hb : (keys b).Nodup)
    (halr : getk a "lr" = some vr) (hvr : vr.isNode = false)
    (has : getk a s = some (.node b))
    (hblr : (getk b "lr").isSome)
    (hbt : getk b t = some (.node g))
    (hglr : (getk g "lr").isSome)
    (hta : t ∉ keys a)
    (hsb : s ∉ keys b) (hsg : s ∉ keys g) (htg : t ∉ keys g) :
    ∃ b₂ g₂,
      getk (propagate 3 a) s = some (.node b₂) ∧
      getk b₂ "lr" = some vr ∧
      getk b₂ t = some (.node g₂) ∧
      getk g₂ "lr" = some vr := by
  have hsmem : s ∈ keys a := mem_keys_of_getk has
  obtain ⟨mid, hm1, hm2, hm3⟩ :=
    foldl_cstep_process (fun fs cur => propagate 2 (inherit fs cur))
      (keys a) a s b ha hsmem has
  have hmidlr : getk mid "lr" = some vr := hm3 "lr" vr hvr halr
  have hmidt : getk mid t = none :=
    getk_eq_none_of_not_mem (by rw [hm2]; exact hta)
  obtain ⟨vc, hvc⟩ := Option.isSome_iff_exists.mp hblr
  have hbi_lr : getk (inherit b mid) "lr" = some vr := by
    rw [getk_inherit, hvc, hmidlr]
  have hbi_t : getk (inherit b mid) t = some (.node g) := by
    rw [getk_inherit, hbt, hmidt]
  have hbi_nd : (keys (inherit b mid)).Nodup := by
    rw [keys_inherit]; exact hb
  have htmem : t ∈ keys (inherit b mid) := mem_keys_of_getk hbi_t
  obtain ⟨mid₂, hn1, hn2, hn3⟩ :=
    foldl_cstep_process (fun fs cur => propagate 1 (inherit fs cur))
      (keys (inherit b mid)) (inherit b mid) t g hbi_nd htmem hbi_t
  have hmid₂lr : getk mid₂ "lr" = some vr := hn3 "lr" vr hvr hbi_lr
  obtain ⟨vg, hvg⟩ := Option.isSome_iff_exists.mp hglr
  have hgi_lr : getk (inherit g mid₂) "lr" = some vr := by
    rw [getk_inherit, hvg, hmid₂lr]
  refine ⟨propagate 2 (inherit b mid), propagate 1 (inherit g mid₂), hm1, ?_, hn1, ?_⟩
  · show getk ((keys (inherit b mid)).foldl
      (cstep (fun fs cur => propagate 1 (inherit fs cur))) (inherit b mid)) "lr" = some vr
    exact foldl_cstep_stable _ _ _ _ vr hvr hbi_lr
  · show getk ((keys (inherit g mid₂)).foldl
      (cstep (fun fs cur => propagate 0 (inherit fs cur))) (inherit g mid₂)) "lr" = some vr
    exact foldl_cstep_stable _ _ _ _ vr hvr hgi_lr

/-- Witness for C1 on the concrete chain of the spec: root with lr = 0.1
    and child link "child", child with lr = 0.2 and link "gchild",
    grandchild with lr = 0.3; after propagate both lower levels hold the
    root's 0.1. -/
theorem propagate_chain_parent_wins_witness :
    ∃ b₂ g₂,
      getk (propagate 3
        [("lr", Value.float (1 / 10)),
         ("child", Value.node
           [("lr", Value.float (2 / 10)),
            ("gchild", Value.node [("lr", Value.float (3 / 10))])])]) "child" =
        some (.node b₂) ∧
      getk b₂ "lr" = some (Value.float (1 / 10)) ∧
      getk b₂ "gchild" = some (.node g₂) ∧
      getk g₂ "lr" = some (Value.float (1 / 10)) :=
  propagate_chain_parent_wins
    [("lr", Value.float (1 / 10)),
     ("child", Value.node
       [("lr", Value.float (2 / 10)),
        ("gchild", Value.node [("lr", Value.float (3 / 10))])])]
    [("lr", Value.float (2 / 10)),
     ("gchild", Value.node [("lr", Value.float (3 / 10))])]
    [("lr", Value.float (3 / 10))]
    "child" "gchild" (Value.float (1 / 10))
    (by decide) (by decide) rfl rfl rfl rfl rfl rfl
    (by decide) (by decide) (by decide) (by decide)

/-
Serialization lemmas.
-/

theorem as_dict_cons_node (k : String) (fs : Config) (rest : Config) :
    as_dict_jsonable ((k, Value.node fs) :: rest) =
      (k, Value.dict (as_dict_jsonable fs)) :: as_dict_jsonable rest := by
  simp [as_dict_jsonable]

theorem as_dict_cons_plain (k : String) (v : Value) (rest : Config)
    (hv : v.isNode = false) :
    as_dict_jsonable ((k, v) :: rest) =
      if jsonable v then (k, v) :: as_dict_jsonable rest
      else as_dict_jsonable rest := by
  cases v with
  | node fs => simp [Value.isNode] at hv
  | _ => simp [as_dict_jsonable]

theorem keys_as_dict_sub {c : Config} {k : String}
    (h : k ∈ keys (as_dict_jsonable c)) : k ∈ keys c := by
  induction c with
  | nil => simpa [as_dict_jsonable] using h
  | cons p rest ih =>
    obtain ⟨k₀, v₀⟩ := p
    by_cases hn : v₀.isNode = true
    · obtain ⟨fs, rfl⟩ : ∃ fs, v₀ = Value.node fs := by
        cases v₀ <;> simp [Value.isNode] at hn ⊢
      rw [as_dict_cons_node] at h
      simp only [keys, List.map_cons, List.mem_cons] at h ⊢
      rcases h with h | h
      · exact Or.inl h
      · exact Or.inr (ih h)
    · rw [as_dict_cons_plain k₀ v₀ rest (by simpa using hn)] at h
      split at h
      next =>
        simp only [keys, List.map_cons, List.mem_cons] at h ⊢
        rcases h with h | h
        · exact Or.inl h
        · exact Or.inr (ih h)
      next =>
        simp only [keys, List.map_cons, List.mem_cons]
        exact Or.inr (ih h)

theorem getk_as_dict (c : Config) (hnd : (keys c).Nodup) (k : String) :
    getk (as_dict_jsonable c) k =
      match getk c k with
      | none => none
      | some (.node fs) => some (Value.dict (as_dict_jsonable fs))
      | some v => if jsonable v then some v else none := by
  induction c with
  | nil => simp [as_dict_jsonable, getk]
  | cons p rest ih =>
    obtain ⟨k₀, v₀⟩ := p
    simp only [keys, List.map_cons, List.nodup_cons] at hnd
    have hk₀ : k₀ ∉ keys rest := hnd.1
    have ih₂ := ih hnd.2
    by_cases hkk : k₀ = k
    · subst hkk
      cases v₀ with
      | node fs =>
        rw [as_dict_cons_node]
        simp [getk]
      | _ =>
        rw [as_dict_cons_plain _ _ _ (by rfl)]
        split
        next hj => simp [getk, hj]
        next hj =>
          have hnm : getk (as_dict_jsonable rest) k₀ = none :=
            getk_eq_none_of_not_mem (fun hm => hk₀ (keys_as_dict_sub hm))
          simp only [Bool.not_eq_true] at hj
          simp [getk, hj, hnm]
    · cases v₀ with
      | node fs =>
        rw [as_dict_cons_node]
        simp [getk, hkk, ih₂]
      | _ =>
        rw [as_dict_cons_plain _ _ _ (by rfl)]
        split
        next hj => simp [getk, hkk, ih₂, hj]
        next hj =>
          simp only [Bool.not_eq_true] at hj
          simp [getk, hkk, ih₂, hj]

/-- C6: as_dict_jsonable is total (it raises nothing and prints nothing:
    the source drops an unserializable field with a bare pass), and field
    for field (keys unique, as Python dicts are): a node-valued field
    appears as its recursive serialization, a jsonable field appears with
    its value, and any other field is absent from the result; in
    particular a node with a = 1 and an opaque b serializes to exactly
    the mapping with the single entry a = 1. -/
theorem as_dict_jsonable_spec (c : Config) (hnd : (keys c).Nodup) :
    (∀ k : String, getk (as_dict_jsonable c) k =
      match getk c k with
      | none => none
      | some (.node fs) => some (Value.dict (as_dict_jsonable fs))
      | some v => if jsonable v then some v else none) ∧
    as_dict_jsonable [("a", Value.int 1), ("b", Value.opq 0)] = [("a", Value.int 1)] :=
  ⟨fun k => getk_as_dict c hnd k, by simp [as_dict_jsonable, jsonable]⟩

/-- Witness for C6 at a concrete node with a kept field, a nested node
    and a dropped opaque field. -/
theorem as_dict_jsonable_spec_witness :
    (keys [("a", Value.int 1), ("sub", Value.node [("x", Value.str "s")]),
           ("b", Value.opq 7)]).Nodup ∧
    getk (as_dict_jsonable
        [("a", Value.int 1), ("sub", Value.node [("x", Value.str "s")]),
         ("b", Value.opq 7)]) "b" = none :=
  ⟨by decide,
   by
    rw [(as_dict_jsonable_spec
      [("a", Value.int 1), ("sub", Value.node [("x", Value.str "s")]),
       ("b", Value.opq 7)] (by decide)).1 "b"]
    simp [getk, jsonable]⟩

/-- C4: loading the mapping with single unknown key z (a key that is
    neither a field nor a BaseConfig method name) raises the extra-field
    ValueError under strict=True, and under strict=False prints the
    diagnostic, changes no field and adds no field — in both modes the
    returned field map is exactly the input node, so the unknown key is
    never merged into the schema. -/
theorem from_dict_unknown_key (c : Config) (h : getk c "z" = none) :
    from_dict c [("z", Value.int 5)] true =
      ⟨c, [], some (.valueError ("loading extra " ++ "z"))⟩ ∧
    from_dict c [("z", Value.int 5)] false =
      ⟨c, ["loading extra " ++ "z"], none⟩ := by
  have hd : isDunder "z" = false := by decide
  have hh : hasattrC c "z" = false := by
    simp [hasattrC, h, baseAttrs, hd]
  constructor <;> simp [from_dict, hh]

/-- Witness for C4 on a one-field node. -/
theorem from_dict_unknown_key_witness :
    getk [("a", Value.int 1)] "z" = none ∧
    from_dict [("a", Value.int 1)] [("z", Value.int 5)] true =
      ⟨[("a", Value.int 1)], [], some (.valueError ("loading extra " ++ "z"))⟩ ∧
    from_dict [("a", Value.int 1)] [("z", Value.int 5)] false =
      ⟨[("a", Value.int 1)], ["loading extra " ++ "z"], none⟩ :=
  ⟨rfl, (from_dict_unknown_key [("a", Value.int 1)] rfl).1,
    (from_dict_unknown_key [("a", Value.int 1)] rfl).2⟩

/-- C5 counterexample: the claim quantifies over every key unknown to the
    nested node's schema, but for the key "clone" — no field of the
    nested node, hence unknown to its schema — the nested non-strict call
    still raises: hasattr(self, "clone") is True because clone is a
    method of BaseConfig, so from_dict reaches self.__dict__["clone"]
    and gets a KeyError.  The top-level call therefore errors instead of
    diagnosing-and-skipping. -/
theorem from_dict_nested_method_key_raises :
    (from_dict [("sub", Value.node [("a", Value.int 1)])]
      [("sub", Value.dict [("clone", Value.int 5)])] true).err =
      some (PyErr.keyError "clone") := by
  simp [from_dict, hasattrC, getk, baseAttrs]

/-- C5 as amended: for a nested unknown key that is not also the name of
    a BaseConfig attribute — neither one of its seven method names nor a
    dunder-shaped name inherited from object/dataclass (hasattr is true
    for those too) — the behavior is as claimed: the strict flag is not
    forwarded to the nested call, so strict=True at the top level does
    not raise on the unknown nested key: it is diagnosed and skipped,
    every field (top and nested) keeps its value, while the same unknown
    key at the top level under strict=True raises the extra-field
    error. -/
theorem from_dict_nested_nonstrict (c sub : Config) (f z : String) (v : Value)
    (hf : getk c f = some (.node sub))
    (hz : getk sub z = none)
    (hzb : baseAttrs.contains z = false)
    (hzd : isDunder z = false)
    (hzc : getk c z = none) :
    from_dict c [(f, Value.dict [(z, v)])] true =
      ⟨c, ["loading extra " ++ z], none⟩ ∧
    from_dict c [(z, v)] true =
      ⟨c, [], some (.valueError ("loading extra " ++ z))⟩ := by
  have hzb₂ : z ∉ baseAttrs := by simpa using hzb
  have hza : hasattrC sub z = false := by simp [hasattrC, hz, hzb₂, hzd]
  have hfa : hasattrC c f = true := by simp [hasattrC, hf]
  have hca : hasattrC c z = false := by simp [hasattrC, hzc, hzb₂, hzd]
  constructor
  · cases v <;> simp [from_dict, hfa, hf, hza, setk_self hf]
  · cases v <;> simp [from_dict, hca]

/-- Witness for the amended C5 at a concrete configuration. -/
theorem from_dict_nested_nonstrict_witness :
    from_dict [("sub", Value.node [("a", Value.int 1)])]
      [("sub", Value.dict [("zz", Value.int 5)])] true =
      ⟨[("sub", Value.node [("a", Value.int 1)])], ["loading extra " ++ "zz"], none⟩ ∧
    from_dict [("sub", Value.node [("a", Value.int 1)])] [("zz", Value.int 5)] true =
      ⟨[("sub", Value.node [("a", Value.int 1)])], [],
        some (.valueError ("loading extra " ++ "zz"))⟩ :=
  from_dict_nested_nonstrict [("sub", Value.node [("a", Value.int 1)])]
    [("a", Value.int 1)] "sub" "zz" (Value.int 5) rfl rfl rfl (by decide) rfl

/-- C9 counterexample: for a path with no directory component the claim
    asserts save succeeds with no directory creation; the source instead
    computes dirname = "", finds os.path.exists("") false, and calls
    os.makedirs(""), which raises FileNotFoundError — save fails before
    writing anything. -/
theorem save_bare_filename_fails :
    save ⟨[], []⟩ ["config.json"] [] = .error .fileNotFound := rfl

theorem save_writes (fs : FS) (p : List String) (c : Config)
    (h : dirname p ≠ []) :
    ∃ fs₂, save fs p c = .ok fs₂ ∧
      getk fs₂.files p = some (vnormD (as_dict_jsonable c)) ∧
      dirname p ∈ fs₂.dirs := by
  have hne : (dirname p).isEmpty = false := by
    cases hd : dirname p
    · exact absurd hd h
    · rfl
  by_cases hex : fs.dirs.contains (dirname p) = true
  · have hmem : dirname p ∈ fs.dirs := List.mem_of_elem_eq_true hex
    refine ⟨{ fs with files := (p, vnormD (as_dict_jsonable c)) :: fs.files },
      ?_, ?_, ?_⟩
    · simp [save, path_exists, hne, hex, hmem]
    · simp [getk]
    · exact hmem
  · have hex₂ : fs.dirs.contains (dirname p) = false := by
      simpa using hex
    have hnmem : dirname p ∉ fs.dirs := by simpa using hex₂
    refine ⟨⟨dirname p :: fs.dirs, (p, vnormD (as_dict_jsonable c)) :: fs.files⟩,
      ?_, ?_, ?_⟩
    · simp [save, path_exists, hne, hex₂, hnmem, makedirs]
    · simp [getk]
    · exact List.mem_cons_self _ _

/-- C9 as amended: for every path that has a directory component, save
    first creates the missing parent directory (and fails if that
    creation fails, which the model reserves for the empty dirname),
    then writes the as_dict_jsonable serialization as JSON text, so the
    file holds the document that text denotes (vnormD of the
    serialization); for a path with no directory component the
    attempted creation of the empty dirname itself fails, so save
    raises instead of succeeding. -/
theorem save_creates_dirs (fs : FS) (p : List String) (c : Config)
    (h : dirname p ≠ []) :
    ∃ fs₂, save fs p c = .ok fs₂ ∧
      getk fs₂.files p = some (vnormD (as_dict_jsonable c)) ∧
      dirname p ∈ fs₂.dirs :=
  save_writes fs p c h

/-- Witness for the amended C9: saving to models/conf.json on an empty
    file system creates the directory and stores the serialization. -/
theorem save_creates_dirs_witness :
    dirname ["models", "conf.json"] ≠ [] ∧
    ∃ fs₂, save ⟨[], []⟩ ["models", "conf.json"] [("a", Value.int 1)] = .ok fs₂ ∧
      getk fs₂.files ["models", "conf.json"] =
        some (vnormD (as_dict_jsonable [("a", Value.int 1)])) ∧
      dirname ["models", "conf.json"] ∈ fs₂.dirs :=
  ⟨by decide,
   save_creates_dirs ⟨[], []⟩ ["models", "conf.json"] [("a", Value.int 1)] (by decide)⟩

/-- C8: the activation lookup maps each of the five declared tags to its
    transformation — identity, rectified-linear, leaky-rectified-linear
    with fixed negative slope 0.2, sigmoid-linear-unit, hyperbolic
    tangent — the five results are pairwise distinct (and being values of
    a pure function, stateless and deterministic), and every tag outside
    the closed set is rejected with the not-implemented error. -/
theorem get_act_spec :
    get_act "none" = .ok .identity ∧
    get_act "relu" = .ok .relu ∧
    get_act "lrelu" = .ok (.lrelu (1 / 5)) ∧
    get_act "silu" = .ok .silu ∧
    get_act "tanh" = .ok .tanh ∧
    [ActKind.identity, ActKind.relu, ActKind.lrelu (1 / 5),
      ActKind.silu, ActKind.tanh].Nodup ∧
    ∀ s : String, s ∉ act_tags → get_act s = .error "NotImplementedError" := by
  refine ⟨rfl, rfl, rfl, rfl, rfl, by decide, ?_⟩
  intro s hs
  simp only [act_tags, List.mem_cons, not_or] at hs
  obtain ⟨h1, h2, h3, h4, h5, _⟩ := hs
  simp [get_act, h1, h2, h3, h4, h5]

/-- Witness for C8: an undeclared tag is rejected. -/
theorem get_act_spec_witness :
    get_act "gelu" = .error "NotImplementedError" :=
  get_act_spec.2.2.2.2.2.2 "gelu" (by decide)

/-
Round-trip machinery: from_dict applied to the node's own serialization
rebuilds the node inside a same-shaped default instance.
-/

theorem getk_append_of_not_mem {κ α : Type} [DecidableEq κ]
    {done : List (κ × α)} (l : List (κ × α)) {k : κ} (h : k ∉ keys done) :
    getk (done ++ l) k = getk l k := by
  induction done with
  | nil => rfl
  | cons p rest ih =>
    simp only [keys, List.map_cons, List.mem_cons, not_or] at h
    have h₁ : ¬ p.1 = k := fun hh => h.1 hh.symm
    simp only [List.cons_append, getk, h₁, if_false]
    exact ih (by simpa [keys] using h.2)

theorem setk_append_of_not_mem {κ α : Type} [DecidableEq κ]
    {done : List (κ × α)} (l : List (κ × α)) {k : κ} (v : α) (h : k ∉ keys done) :
    setk (done ++ l) k v = done ++ setk l k v := by
  induction done with
  | nil => rfl
  | cons p rest ih =>
    simp only [keys, List.map_cons, List.mem_cons, not_or] at h
    have h₁ : ¬ p.1 = k := fun hh => h.1 hh.symm
    simp only [List.cons_append, setk, h₁, if_false, List.cons.injEq, true_and]
    exact ih (by simpa [keys] using h.2)

theorem from_dict_nil (c : Config) (strict : Bool) :
    from_dict c [] strict = ⟨c, [], none⟩ := by
  simp [from_dict]

theorem from_dict_step_node (c : Config) (k : String) (es rest : List (String × Value))
    (strict : Bool) (gs : Config) (hw : getk c k = some (.node gs)) :
    from_dict c ((k, Value.dict es) :: rest) strict =
      (let r := from_dict gs es false
       match r.err with
       | some e => ⟨setk c k (.node r.cfg), r.logs, some e⟩
       | none =>
         let r₂ := from_dict (setk c k (.node r.cfg)) rest strict
         ⟨r₂.cfg, r.logs ++ r₂.logs, r₂.err⟩) := by
  have hh : hasattrC c k = true := by simp [hasattrC, hw]
  simp [from_dict, hh, hw]

theorem from_dict_step_assign (c : Config) (k : String) (v w : Value)
    (rest : List (String × Value)) (strict : Bool)
    (hw : getk c k = some w) (hwn : w.isNode = false) :
    from_dict c ((k, v) :: rest) strict = from_dict (setk c k v) rest strict := by
  have hh : hasattrC c k = true := by simp [hasattrC, hw]
  cases w with
  | node gs => simp [Value.isNode] at hwn
  | _ => cases v <;> simp [from_dict, hh, hw]

theorem wfc_cons_node {k : String} {fs rest : Config}
    (h : wfc ((k, Value.node fs) :: rest) = true) :
    k ∉ keys rest ∧ wfc fs = true ∧ wfc rest = true := by
  simpa [wfc, and_assoc] using h

theorem wfc_cons_plain {k : String} {v : Value} {rest : Config}
    (hv : v.isNode = false) (h : wfc ((k, v) :: rest) = true) :
    k ∉ keys rest ∧ wfc rest = true := by
  cases v with
  | node fs => simp [Value.isNode] at hv
  | _ => simpa [wfc] using h

theorem allJsonable_cons_node {k : String} {fs rest : Config}
    (h : allJsonable ((k, Value.node fs) :: rest) = true) :
    allJsonable fs = true ∧ allJsonable rest = true := by
  simpa [allJsonable] using h

theorem allJsonable_cons_plain {k : String} {v : Value} {rest : Config}
    (hv : v.isNode = false) (h : allJsonable ((k, v) :: rest) = true) :
    jsonable v = true ∧ allJsonable rest = true := by
  cases v with
  | node fs => simp [Value.isNode] at hv
  | _ => simpa [allJsonable] using h

theorem sameShape_nil_cons {p : String × Value} {f : Config}
    (h : sameShape [] (p :: f) = true) : False := by
  obtain ⟨k, w⟩ := p
  cases w <;> simp [sameShape] at h

theorem sameShape_cons_nil {p : String × Value} {o : Config}
    (h : sameShape (p :: o) [] = true) : False := by
  obtain ⟨k, v⟩ := p
  cases v <;> simp [sameShape] at h

theorem sameShape_node_node {k k₂ : String} {fs gs o f : Config}
    (h : sameShape ((k, Value.node fs) :: o) ((k₂, Value.node gs) :: f) = true) :
    k = k₂ ∧ sameShape fs gs = true ∧ sameShape o f = true := by
  simpa [sameShape, and_assoc] using h

theorem sameShape_node_plain {k k₂ : String} {fs : Config} {w : Value} {o f : Config}
    (hw : w.isNode = false)
    (h : sameShape ((k, Value.node fs) :: o) ((k₂, w) :: f) = true) : False := by
  cases w with
  | node gs => simp [Value.isNode] at hw
  | _ => simp [sameShape] at h

theorem sameShape_plain_node {k k₂ : String} {v : Value} {gs : Config} {o f : Config}
    (hv : v.isNode = false)
    (h : sameShape ((k, v) :: o) ((k₂, Value.node gs) :: f) = true) : False := by
  cases v with
  | node fs => simp [Value.isNode] at hv
  | _ => simp [sameShape] at h

theorem sameShape_plain_plain {k k₂ : String} {v w : Value} {o f : Config}
    (hv : v.isNode = false) (hw : w.isNode = false)
    (h : sameShape ((k, v) :: o) ((k₂, w) :: f) = true) :
    k = k₂ ∧ sameShape o f = true := by
  cases v with
  | node fs => simp [Value.isNode] at hv
  | _ =>
    cases w with
    | node gs => simp [Value.isNode] at hw
    | _ => simpa [sameShape] using h

/-- Loading the serialization of o into a same-shaped default f, with an
    already-rebuilt prefix done in front (keys disjoint from o's),
    rebuilds o exactly: no diagnostic, no exception, every field of o in
    place.  Induction on a size bound covering both the descent into
    node fields and the walk along the field list. -/
theorem from_dict_roundtrip_aux :
    ∀ n : Nat, ∀ o f done : Config, sizeOf o ≤ n →
      (∀ k₁, k₁ ∈ keys o → k₁ ∉ keys done) →
      wfc o = true → allJsonable o = true → sameShape o f = true →
      from_dict (done ++ f) (as_dict_jsonable o) false = ⟨done ++ o, [], none⟩ := by
  intro n
  induction n with
  | zero =>
    intro o f done hs _ _ _ _
    exfalso
    have h1 : 0 < sizeOf o := by cases o <;> simp_arith
    omega
  | succ n ih =>
    intro o f done hs hdisj hwf hjs hsh
    cases o with
    | nil =>
      cases f with
      | nil => simp [as_dict_jsonable, from_dict_nil]
      | cons p f' => exact (sameShape_nil_cons hsh).elim
    | cons p o' =>
      obtain ⟨k, v⟩ := p
      cases f with
      | nil => exact (sameShape_cons_nil hsh).elim
      | cons p₂ f' =>
        obtain ⟨k₂, w⟩ := p₂
        have hmemk : k ∈ keys ((k, v) :: o') := by simp [keys]
        by_cases hv : v.isNode = true
        · obtain ⟨fs, rfl⟩ : ∃ fs, v = Value.node fs := by
            cases v <;> simp [Value.isNode] at hv ⊢
          by_cases hw : w.isNode = true
          · obtain ⟨gs, rfl⟩ : ∃ gs, w = Value.node gs := by
              cases w <;> simp [Value.isNode] at hw ⊢
            obtain ⟨hk, hshape, hshape₂⟩ := sameShape_node_node hsh
            subst hk
            obtain ⟨hkn, hwf₁, hwf₂⟩ := wfc_cons_node hwf
            obtain ⟨hjs₁, hjs₂⟩ := allJsonable_cons_node hjs
            simp_arith only [List.cons.sizeOf_spec, Prod.mk.sizeOf_spec,
              Value.node.sizeOf_spec] at hs
            have hs₁ : sizeOf fs ≤ n := by omega
            have hs₂ : sizeOf o' ≤ n := by omega
            rw [as_dict_cons_node]
            have hgetk : getk (done ++ (k, Value.node gs) :: f') k =
                some (Value.node gs) := by
              rw [getk_append_of_not_mem _ (hdisj k hmemk)]
              simp [getk]
            rw [from_dict_step_node _ _ _ _ _ gs hgetk]
            have hrec : from_dict gs (as_dict_jsonable fs) false =
                ⟨fs, [], none⟩ := by
              exact ih fs gs [] hs₁ (by simp [keys]) hwf₁ hjs₁ hshape
            have hsetk : setk (done ++ (k, Value.node gs) :: f') k (Value.node fs) =
                done ++ (k, Value.node fs) :: f' := by
              rw [setk_append_of_not_mem _ _ (hdisj k hmemk)]
              simp [setk]
            have hdisj₂ : ∀ k₁, k₁ ∈ keys o' →
                k₁ ∉ keys (done ++ [(k, Value.node fs)]) := by
              intro k₁ hk₁ hmem
              simp only [keys, List.map_append, List.mem_append, List.map_cons,
                List.map_nil, List.mem_cons, List.not_mem_nil, or_false] at hmem
              rcases hmem with hmem | hmem
              · exact hdisj k₁ (by
                  simp only [keys, List.map_cons, List.mem_cons]
                  exact Or.inr (by simpa [keys] using hk₁)) hmem
              · exact hkn (hmem ▸ hk₁)
            have htail : from_dict (done ++ (k, Value.node fs) :: f')
                (as_dict_jsonable o') false =
                ⟨done ++ (k, Value.node fs) :: o', [], none⟩ := by
              have h0 := ih o' f' (done ++ [(k, Value.node fs)]) hs₂ hdisj₂ hwf₂
                hjs₂ hshape₂
              simpa [List.append_assoc] using h0
            simp [hrec, hsetk, htail]
          · obtain ⟨hw₂ : w.isNode = false⟩ : w.isNode = false ∧ True :=
              ⟨by simpa using hw, trivial⟩
            exact (sameShape_node_plain hw₂ hsh).elim
        · have hv₂ : v.isNode = false := by simpa using hv
          by_cases hw : w.isNode = true
          · obtain ⟨gs, rfl⟩ : ∃ gs, w = Value.node gs := by
              cases w <;> simp [Value.isNode] at hw ⊢
            exact (sameShape_plain_node hv₂ hsh).elim
          · have hw₂ : w.isNode = false := by simpa using hw
            obtain ⟨hk, hshape₂⟩ := sameShape_plain_plain hv₂ hw₂ hsh
            subst hk
            obtain ⟨hkn, hwf₂⟩ := wfc_cons_plain hv₂ hwf
            obtain ⟨hj₁, hjs₂⟩ := allJsonable_cons_plain hv₂ hjs
            simp_arith only [List.cons.sizeOf_spec, Prod.mk.sizeOf_spec] at hs
            have hs₂ : sizeOf o' ≤ n := by omega
            rw [as_dict_cons_plain _ _ _ hv₂, if_pos hj₁]
            have hgetk : getk (done ++ (k, w) :: f') k = some w := by
              rw [getk_append_of_not_mem _ (hdisj k hmemk)]
              simp [getk]
            rw [from_dict_step_assign _ _ v w _ _ hgetk hw₂]
            have hsetk : setk (done ++ (k, w) :: f') k v = done ++ (k, v) :: f' := by
              rw [setk_append_of_not_mem _ _ (hdisj k hmemk)]
              simp [setk]
            have hdisj₂ : ∀ k₁, k₁ ∈ keys o' → k₁ ∉ keys (done ++ [(k, v)]) := by
              intro k₁ hk₁ hmem
              simp only [keys, List.map_append, List.mem_append, List.map_cons,
                List.map_nil, List.mem_cons, List.not_mem_nil, or_false] at hmem
              rcases hmem with hmem | hmem
              · exact hdisj k₁ (by
                  simp only [keys, List.map_cons, List.mem_cons]
                  exact Or.inr (by simpa [keys] using hk₁)) hmem
              · exact hkn (hmem ▸ hk₁)
            have htail : from_dict (done ++ (k, v) :: f') (as_dict_jsonable o') false =
                ⟨done ++ (k, v) :: o', [], none⟩ := by
              have h0 := ih o' f' (done ++ [(k, v)]) hs₂ hdisj₂ hwf₂ hjs₂ hshape₂
              simpa [List.append_assoc] using h0
            simp [hsetk, htail]

theorem stable_vnorm :
    ∀ n : Nat,
      (∀ v : Value, sizeOf v ≤ n → stable v = true → vnorm v = v) ∧
      (∀ xs : List Value, sizeOf xs ≤ n → stableL xs = true → vnormL xs = xs) ∧
      (∀ es : List (String × Value), sizeOf es ≤ n → stableD es = true →
        vnormD es = es) := by
  intro n
  induction n with
  | zero =>
    refine ⟨fun v hs _ => absurd hs ?_, fun xs hs _ => absurd hs ?_,
      fun es hs _ => absurd hs ?_⟩
    · cases v <;> simp_arith
    · cases xs <;> simp_arith
    · cases es <;> simp_arith
  | succ n ih =>
    obtain ⟨ihv, ihl, ihd⟩ := ih
    refine ⟨?_, ?_, ?_⟩
    · intro v hs hst
      cases v with
      | tuple xs => simp [stable] at hst
      | list xs =>
        have hsx : sizeOf xs ≤ n := by
          simp only [Value.list.sizeOf_spec] at hs; omega
        have hst₂ : stableL xs = true := by simpa [stable] using hst
        simp only [vnorm, ihl xs hsx hst₂]
      | dict es =>
        have hse : sizeOf es ≤ n := by
          simp only [Value.dict.sizeOf_spec] at hs; omega
        have hst₂ : stableD es = true := by simpa [stable] using hst
        simp only [vnorm, ihd es hse hst₂]
      | _ => simp [vnorm]
    · intro xs hs hst
      cases xs with
      | nil => simp [vnormL]
      | cons x xs₂ =>
        simp only [List.cons.sizeOf_spec] at hs
        have hsx : sizeOf x ≤ n := by omega
        have hsx₂ : sizeOf xs₂ ≤ n := by omega
        obtain ⟨h1, h2⟩ : stable x = true ∧ stableL xs₂ = true := by
          simpa [stableL, Bool.and_eq_true] using hst
        simp only [vnormL, ihv x hsx h1, ihl xs₂ hsx₂ h2]
    · intro es hs hst
      cases es with
      | nil => simp [vnormD]
      | cons p es₂ =>
        obtain ⟨k, v⟩ := p
        simp only [List.cons.sizeOf_spec, Prod.mk.sizeOf_spec] at hs
        have hsv : sizeOf v ≤ n := by omega
        have hse : sizeOf es₂ ≤ n := by omega
        obtain ⟨h1, h2⟩ : stable v = true ∧ stableD es₂ = true := by
          simpa [stableD, Bool.and_eq_true] using hst
        simp only [vnormD, ihv v hsv h1, ihd es₂ hse h2]

theorem allStable_cons_node {k : String} {fs rest : Config}
    (h : allStable ((k, Value.node fs) :: rest) = true) :
    allStable fs = true ∧ allStable rest = true := by
  simpa [allStable] using h

theorem allStable_cons_plain {k : String} {v : Value} {rest : Config}
    (hv : v.isNode = false) (h : allStable ((k, v) :: rest) = true) :
    stable v = true ∧ allStable rest = true := by
  cases v with
  | node fs => simp [Value.isNode] at hv
  | _ => simpa [allStable] using h

theorem vnormD_as_dict_of_stable :
    ∀ n (o : Config), sizeOf o ≤ n → allStable o = true →
      vnormD (as_dict_jsonable o) = as_dict_jsonable o := by
  intro n
  induction n with
  | zero =>
    intro o hs _
    cases o with
    | nil => simp [as_dict_jsonable, vnormD]
    | cons p r => exact absurd hs (by simp_arith)
  | succ n ih =>
    intro o hs hst
    cases o with
    | nil => simp [as_dict_jsonable, vnormD]
    | cons p rest =>
      obtain ⟨k, v⟩ := p
      by_cases hn : v.isNode = true
      · obtain ⟨fs, rfl⟩ : ∃ fs, v = Value.node fs := by
          cases v <;> simp [Value.isNode] at hn ⊢
        obtain ⟨h1, h2⟩ := allStable_cons_node hst
        simp_arith only [List.cons.sizeOf_spec, Prod.mk.sizeOf_spec,
          Value.node.sizeOf_spec] at hs
        have hs₁ : sizeOf fs ≤ n := by omega
        have hs₂ : sizeOf rest ≤ n := by omega
        rw [as_dict_cons_node]
        simp only [vnormD, vnorm, ih fs hs₁ h1, ih rest hs₂ h2]
      · have hv : v.isNode = false := by simpa using hn
        obtain ⟨h1, h2⟩ := allStable_cons_plain hv hst
        simp_arith only [List.cons.sizeOf_spec, Prod.mk.sizeOf_spec] at hs
        have hs₂ : sizeOf rest ≤ n := by omega
        rw [as_dict_cons_plain _ _ _ hv]
        by_cases hj : jsonable v = true
        · rw [if_pos hj]
          simp only [vnormD, (stable_vnorm (sizeOf v)).1 v (Nat.le_refl _) h1,
            ih rest hs₂ h2]
        · rw [if_neg hj]
          exact ih rest hs₂ h2

/-- C3 counterexample: the claim quantifies over every node all of whose
    fields are JSON-representable, but a tuple-valued field — e.g.
    channel_mult = (1, 2), the repository's own idiom in train.py — is
    JSON-representable (json.dump writes it as an array) yet comes back
    from json.load as a list: save then load into a same-shaped default
    yields a node whose channel_mult is the list [1, 2], not the
    original tuple, so the loaded instance is not field-equal to the
    original. -/
theorem save_load_tuple_not_roundtrip :
    save ⟨[], []⟩ ["models", "conf.json"]
        [("channel_mult", Value.tuple [Value.int 1, Value.int 2])] =
      .ok ⟨[["models"]],
        [(["models", "conf.json"],
          [("channel_mult", Value.list [Value.int 1, Value.int 2])])]⟩ ∧
    load ⟨[["models"]],
        [(["models", "conf.json"],
          [("channel_mult", Value.list [Value.int 1, Value.int 2])])]⟩
      ["models", "conf.json"]
      [("channel_mult", Value.tuple [Value.int 1, Value.int 2])] =
      .ok ⟨[("channel_mult", Value.list [Value.int 1, Value.int 2])], [], none⟩ ∧
    Value.list [Value.int 1, Value.int 2] ≠
      Value.tuple [Value.int 1, Value.int 2] := by
  refine ⟨?_, ?_, by simp⟩
  · simp [save, path_exists, dirname, makedirs, as_dict_jsonable, jsonable,
      vnormD, vnorm, vnormL]
  · simp [load, getk, from_dict, hasattrC, setk, Value.isNode]

/-- C3 as amended: for a Config Node whose fields are all
    JSON-representable AND JSON-stable — no tuple anywhere in a field
    value, since json.dump writes a tuple as an array that json.load
    returns as a list (keys unique as Python guarantees) — save followed
    by load into a freshly constructed default instance of the same
    concrete type (a node of the same shape: same field names and order,
    node fields in the same places with recursively the same shape,
    arbitrary default values) rebuilds the original exactly: the loaded
    instance equals the original in every field, with no diagnostic and
    no error.  The path carries a directory component, the regime in
    which save itself succeeds. -/
theorem save_load_roundtrip (fs : FS) (p : List String) (orig fresh : Config)
    (hdir : dirname p ≠ [])
    (hwf : wfc orig = true) (hjs : allJsonable orig = true)
    (hstb : allStable orig = true)
    (hsh : sameShape orig fresh = true) :
    ∃ fs₂, save fs p orig = .ok fs₂ ∧
      load fs₂ p fresh = .ok ⟨orig, [], none⟩ := by
  obtain ⟨fs₂, hsave, hfile, _⟩ := save_writes fs p orig hdir
  refine ⟨fs₂, hsave, ?_⟩
  rw [vnormD_as_dict_of_stable (sizeOf orig) orig (Nat.le_refl _) hstb] at hfile
  have hfd : from_dict fresh (as_dict_jsonable orig) false = ⟨orig, [], none⟩ := by
    have h0 := from_dict_roundtrip_aux (sizeOf orig) orig fresh []
      (Nat.le_refl _) (by simp [keys]) hwf hjs hsh
    exact h0
  simp [load, hfile, hfd]

/-- Witness for the amended C3: a node with a plain field and a nested
    node, saved to models/conf.json and loaded back into a same-shaped
    default. -/
theorem save_load_roundtrip_witness :
    ∃ fs₂,
      save ⟨[], []⟩ ["models", "conf.json"]
        [("a", Value.int 1), ("sub", Value.node [("b", Value.str "x")])] = .ok fs₂ ∧
      load fs₂ ["models", "conf.json"]
        [("a", Value.int 0), ("sub", Value.node [("b", Value.null)])] =
        .ok ⟨[("a", Value.int 1), ("sub", Value.node [("b", Value.str "x")])],
          [], none⟩ :=
  save_load_roundtrip ⟨[], []⟩ ["models", "conf.json"]
    [("a", Value.int 1), ("sub", Value.node [("b", Value.str "x")])]
    [("a", Value.int 0), ("sub", Value.node [("b", Value.null)])]
    (by decide)
    (by simp [wfc, keys])
    (by simp [allJsonable, jsonable])
    (by simp [allStable, stable])
    (by simp [sameShape])

/-
Heap-level lemmas: reading is monotone in fuel and stable under any heap
change that preserves the entries it can see; writing only ever adds
fresh objects.
-/

theorem getk_mem {κ α : Type} [DecidableEq κ] :
    ∀ {l : List (κ × α)} {k : κ} {v : α}, getk l k = some v → (k, v) ∈ l := by
  intro l
  induction l with
  | nil => intro k v h; simp [getk] at h
  | cons p rest ih =>
    intro k v h
    by_cases hp : p.1 = k
    · simp only [getk, hp, if_pos rfl] at h
      cases h
      have hp₂ : (k, p.2) = p := by
        rw [← hp]
      rw [hp₂]
      exact List.mem_cons_self _ _
    · simp only [getk, hp, if_false] at h
      exact List.mem_cons_of_mem _ (ih h)

theorem wf_get_lt {h : Heap} {b : Nat} {o : HObj}
    (hwf : wfH h = true) (hg : Heap.get h b = some o) : b < h.next := by
  have hmem : (b, o) ∈ h.objs := getk_mem hg
  have := List.all_eq_true.mp hwf _ hmem
  simpa using this

theorem readL_of_ptwise {r r₂ : HVal → Option Value}
    (hmono : ∀ x y, r x = some y → r₂ x = some y) :
    ∀ {xs : List HVal} {ys : List Value},
      readL r xs = some ys → readL r₂ xs = some ys := by
  intro xs
  induction xs with
  | nil => intro ys h; simpa [readL] using h
  | cons x xs ih =>
    intro ys h
    simp only [readL] at h ⊢
    cases hx : r x with
    | none => rw [hx] at h; simp at h
    | some y =>
      rw [hx] at h
      cases hxs : readL r xs with
      | none => rw [hxs] at h; simp at h
      | some ys₂ =>
        rw [hxs] at h
        rw [hmono x y hx, ih hxs]
        exact h

theorem readF_of_ptwise {r r₂ : HVal → Option Value}
    (hmono : ∀ x y, r x = some y → r₂ x = some y) :
    ∀ {es : List (String × HVal)} {fs : List (String × Value)},
      readF r es = some fs → readF r₂ es = some fs := by
  intro es
  induction es with
  | nil => intro fs h; simpa [readF] using h
  | cons p es ih =>
    obtain ⟨k, x⟩ := p
    intro fs h
    simp only [readF] at h ⊢
    cases hx : r x with
    | none => rw [hx] at h; simp at h
    | some y =>
      rw [hx] at h
      cases hes : readF r es with
      | none => rw [hes] at h; simp at h
      | some fs₂ =>
        rw [hes] at h
        rw [hmono x y hx, ih hes]
        exact h

theorem readV_list_inv {n : Nat} {h : Heap} {xs : List HVal} {t : Value}
    (hr : readV (n + 1) h (.list xs) = some t) :
    ∃ ys, readL (readV n h) xs = some ys ∧ t = Value.list ys := by
  simp only [readV, Option.map_eq_some'] at hr
  obtain ⟨ys, hl, ht⟩ := hr
  exact ⟨ys, hl, ht.symm⟩

theorem readV_tuple_inv {n : Nat} {h : Heap} {xs : List HVal} {t : Value}
    (hr : readV (n + 1) h (.tuple xs) = some t) :
    ∃ ys, readL (readV n h) xs = some ys ∧ t = Value.tuple ys := by
  simp only [readV, Option.map_eq_some'] at hr
  obtain ⟨ys, hl, ht⟩ := hr
  exact ⟨ys, hl, ht.symm⟩

theorem readV_dict_inv {n : Nat} {h : Heap} {es : List (String × HVal)} {t : Value}
    (hr : readV (n + 1) h (.dict es) = some t) :
    ∃ fs, readF (readV n h) es = some fs ∧ t = Value.dict fs := by
  simp only [readV, Option.map_eq_some'] at hr
  obtain ⟨fs, hf, ht⟩ := hr
  exact ⟨fs, hf, ht.symm⟩

theorem readV_ref_inv {n : Nat} {h : Heap} {a : Nat} {t : Value}
    (hr : readV (n + 1) h (.ref a) = some t) :
    ∃ o fs, Heap.get h a = some o ∧ readF (readV n h) o = some fs ∧
      t = Value.node fs := by
  simp only [readV] at hr
  cases hga : Heap.get h a with
  | none => rw [hga] at hr; simp at hr
  | some o =>
    rw [hga] at hr
    simp only [Option.map_eq_some'] at hr
    obtain ⟨fs, h1, h2⟩ := hr
    exact ⟨o, fs, rfl, h1, h2.symm⟩

theorem readV_mono :
    ∀ n m (h : Heap) (v : HVal) (t : Value), n ≤ m →
      readV n h v = some t → readV m h v = some t := by
  intro n
  induction n with
  | zero => intro m h v t _ hr; simp [readV] at hr
  | succ n ih =>
    intro m h v t hnm hr
    obtain ⟨m₁, rfl⟩ : ∃ m₁, m = m₁ + 1 := ⟨m - 1, by omega⟩
    have hnm₁ : n ≤ m₁ := by omega
    cases v with
    | list xs =>
      obtain ⟨ys, hl, rfl⟩ := readV_list_inv hr
      simp only [readV]
      rw [readL_of_ptwise (fun x y hx => ih m₁ h x y hnm₁ hx) hl]
      rfl
    | tuple xs =>
      obtain ⟨ys, hl, rfl⟩ := readV_tuple_inv hr
      simp only [readV]
      rw [readL_of_ptwise (fun x y hx => ih m₁ h x y hnm₁ hx) hl]
      rfl
    | dict es =>
      obtain ⟨fs, hf, rfl⟩ := readV_dict_inv hr
      simp only [readV]
      rw [readF_of_ptwise (fun x y hx => ih m₁ h x y hnm₁ hx) hf]
      rfl
    | ref a =>
      obtain ⟨o, fs, hga, hf, rfl⟩ := readV_ref_inv hr
      simp only [readV, hga]
      rw [readF_of_ptwise (fun x y hx => ih m₁ h x y hnm₁ hx) hf]
      rfl
    | _ => simp only [readV] at hr ⊢; exact hr

theorem readV_agree :
    ∀ n (h h₂ : Heap) (v : HVal) (t : Value),
      (∀ b o, Heap.get h b = some o → Heap.get h₂ b = some o) →
      readV n h v = some t → readV n h₂ v = some t := by
  intro n
  induction n with
  | zero => intro h h₂ v t _ hr; simp [readV] at hr
  | succ n ih =>
    intro h h₂ v t hpres hr
    cases v with
    | list xs =>
      obtain ⟨ys, hl, rfl⟩ := readV_list_inv hr
      simp only [readV]
      rw [readL_of_ptwise (fun x y hx => ih h h₂ x y hpres hx) hl]
      rfl
    | tuple xs =>
      obtain ⟨ys, hl, rfl⟩ := readV_tuple_inv hr
      simp only [readV]
      rw [readL_of_ptwise (fun x y hx => ih h h₂ x y hpres hx) hl]
      rfl
    | dict es =>
      obtain ⟨fs, hf, rfl⟩ := readV_dict_inv hr
      simp only [readV]
      rw [readF_of_ptwise (fun x y hx => ih h h₂ x y hpres hx) hf]
      rfl
    | ref a =>
      obtain ⟨o, fs, hga, hf, rfl⟩ := readV_ref_inv hr
      simp only [readV, hpres a o hga]
      rw [readF_of_ptwise (fun x y hx => ih h h₂ x y hpres hx) hf]
      rfl
    | _ => simp only [readV] at hr ⊢; exact hr

/-- Heap h₂ keeps every object h holds, at the same address. -/
def HeapPres (h h₂ : Heap) : Prop :=
  ∀ b o, Heap.get h b = some o → Heap.get h₂ b = some o

theorem writeV_list_eq (h : Heap) (xs : List Value) :
    writeV h (.list xs) = ((writeList h xs).1, .list (writeList h xs).2) := by
  simp [writeV]

theorem writeV_tuple_eq (h : Heap) (xs : List Value) :
    writeV h (.tuple xs) = ((writeList h xs).1, .tuple (writeList h xs).2) := by
  simp [writeV]

theorem writeV_dict_eq (h : Heap) (es : List (String × Value)) :
    writeV h (.dict es) = ((writeFields h es).1, .dict (writeFields h es).2) := by
  simp [writeV]

theorem writeV_node_eq (h : Heap) (fs : List (String × Value)) :
    writeV h (.node fs) =
      (⟨((writeFields h fs).1.next, (writeFields h fs).2) :: (writeFields h fs).1.objs,
        (writeFields h fs).1.next + 1⟩, .ref (writeFields h fs).1.next) := by
  simp [writeV]

theorem writeFields_nil_eq (h : Heap) : writeFields h [] = (h, []) := by
  simp [writeFields]

theorem writeFields_cons_eq (h : Heap) (k : String) (v : Value)
    (es : List (String × Value)) :
    writeFields h ((k, v) :: es) =
      ((writeFields (writeV h v).1 es).1,
       (k, (writeV h v).2) :: (writeFields (writeV h v).1 es).2) := by
  simp [writeFields]

theorem writeList_nil_eq (h : Heap) : writeList h [] = (h, []) := by
  simp [writeList]

theorem writeList_cons_eq (h : Heap) (v : Value) (xs : List Value) :
    writeList h (v :: xs) =
      ((writeList (writeV h v).1 xs).1,
       (writeV h v).2 :: (writeList (writeV h v).1 xs).2) := by
  simp [writeList]

/-- The copying write only allocates: the heap grows toward fresh
    addresses only, every existing object is untouched, well-formedness
    is kept, and reading the written value back (with fuel at least the
    size of the tree) recovers exactly the tree that was written. -/
theorem write_spec :
    ∀ n : Nat,
      (∀ (v : Value) (h : Heap), sizeOf v ≤ n → wfH h = true →
        h.next ≤ (writeV h v).1.next ∧ HeapPres h (writeV h v).1 ∧
        wfH (writeV h v).1 = true ∧
        ∀ M, sizeOf v ≤ M → readV M (writeV h v).1 (writeV h v).2 = some v) ∧
      (∀ (es : List (String × Value)) (h : Heap), sizeOf es ≤ n → wfH h = true →
        h.next ≤ (writeFields h es).1.next ∧ HeapPres h (writeFields h es).1 ∧
        wfH (writeFields h es).1 = true ∧
        ∀ M, sizeOf es ≤ M →
          readF (readV M (writeFields h es).1) (writeFields h es).2 = some es) ∧
      (∀ (xs : List Value) (h : Heap), sizeOf xs ≤ n → wfH h = true →
        h.next ≤ (writeList h xs).1.next ∧ HeapPres h (writeList h xs).1 ∧
        wfH (writeList h xs).1 = true ∧
        ∀ M, sizeOf xs ≤ M →
          readL (readV M (writeList h xs).1) (writeList h xs).2 = some xs) := by
  intro n
  induction n with
  | zero =>
    refine ⟨fun v h hs _ => absurd hs ?_, fun es h hs _ => absurd hs ?_,
      fun xs h hs _ => absurd hs ?_⟩
    · cases v <;> simp_arith
    · cases es <;> simp_arith
    · cases xs <;> simp_arith
  | succ n ih =>
    obtain ⟨ihv, ihf, ihl⟩ := ih
    refine ⟨?_, ?_, ?_⟩
    · intro v h hs hwf
      cases v with
      | list xs =>
        have hsx : sizeOf xs ≤ n := by
          simp only [Value.list.sizeOf_spec] at hs; omega
        obtain ⟨ha, hb, hc, hd⟩ := ihl xs h hsx hwf
        rw [writeV_list_eq]
        refine ⟨ha, hb, hc, ?_⟩
        intro M hM
        simp only [Value.list.sizeOf_spec] at hM
        obtain ⟨M₁, rfl⟩ : ∃ M₁, M = M₁ + 1 := ⟨M - 1, by omega⟩
        have hM₁ : sizeOf xs ≤ M₁ := by omega
        simp only [readV]
        rw [hd M₁ hM₁]
        rfl
      | tuple xs =>
        have hsx : sizeOf xs ≤ n := by
          simp only [Value.tuple.sizeOf_spec] at hs; omega
        obtain ⟨ha, hb, hc, hd⟩ := ihl xs h hsx hwf
        rw [writeV_tuple_eq]
        refine ⟨ha, hb, hc, ?_⟩
        intro M hM
        simp only [Value.tuple.sizeOf_spec] at hM
        obtain ⟨M₁, rfl⟩ : ∃ M₁, M = M₁ + 1 := ⟨M - 1, by omega⟩
        have hM₁ : sizeOf xs ≤ M₁ := by omega
        simp only [readV]
        rw [hd M₁ hM₁]
        rfl
      | dict es =>
        have hse : sizeOf es ≤ n := by
          simp only [Value.dict.sizeOf_spec] at hs; omega
        obtain ⟨ha, hb, hc, hd⟩ := ihf es h hse hwf
        rw [writeV_dict_eq]
        refine ⟨ha, hb, hc, ?_⟩
        intro M hM
        simp only [Value.dict.sizeOf_spec] at hM
        obtain ⟨M₁, rfl⟩ : ∃ M₁, M = M₁ + 1 := ⟨M - 1, by omega⟩
        have hM₁ : sizeOf es ≤ M₁ := by omega
        simp only [readV]
        rw [hd M₁ hM₁]
        rfl
      | node fs =>
        have hsf : sizeOf fs ≤ n := by
          simp only [Value.node.sizeOf_spec] at hs; omega
        obtain ⟨ha, hb, hc, hd⟩ := ihf fs h hsf hwf
        rw [writeV_node_eq]
        have hpres₂ : HeapPres (writeFields h fs).1
            ⟨((writeFields h fs).1.next, (writeFields h fs).2) ::
              (writeFields h fs).1.objs, (writeFields h fs).1.next + 1⟩ := by
          intro b o hbo
          have hlt := wf_get_lt hc hbo
          have hne : ¬ (writeFields h fs).1.next = b := by omega
          simpa [Heap.get, getk, hne] using hbo
        refine ⟨Nat.le_trans ha (Nat.le_succ _), fun b o hbo => hpres₂ b o (hb b o hbo),
          ?_, ?_⟩
        · simp only [wfH, List.all_cons, Bool.and_eq_true, decide_eq_true_eq]
          constructor
          · show (writeFields h fs).1.next < (writeFields h fs).1.next + 1
            omega
          · rw [List.all_eq_true]
            intro e he
            have h₁ := List.all_eq_true.mp hc e he
            simp only [decide_eq_true_eq] at h₁ ⊢
            show e.1 < (writeFields h fs).1.next + 1
            omega
        · intro M hM
          simp only [Value.node.sizeOf_spec] at hM
          obtain ⟨M₁, rfl⟩ : ∃ M₁, M = M₁ + 1 := ⟨M - 1, by omega⟩
          have hM₁ : sizeOf fs ≤ M₁ := by omega
          have hget : Heap.get
              ⟨((writeFields h fs).1.next, (writeFields h fs).2) ::
                (writeFields h fs).1.objs, (writeFields h fs).1.next + 1⟩
              (writeFields h fs).1.next = some (writeFields h fs).2 := by
            simp [Heap.get, getk]
          have hreadf := readF_of_ptwise
            (fun x y hx => readV_agree M₁ _ _ x y hpres₂ hx) (hd M₁ hM₁)
          simp [readV, hget, hreadf]
      | _ =>
        refine ⟨Nat.le_refl _, fun b o hb => hb, hwf, ?_⟩
        intro M hM
        simp only [Value.int.sizeOf_spec, Value.float.sizeOf_spec,
          Value.str.sizeOf_spec, Value.bool.sizeOf_spec, Value.null.sizeOf_spec,
          Value.opq.sizeOf_spec] at hM
        obtain ⟨M₁, rfl⟩ : ∃ M₁, M = M₁ + 1 := ⟨M - 1, by omega⟩
        simp [readV, writeV]
    · intro es h hs hwf
      cases es with
      | nil =>
        rw [writeFields_nil_eq]
        exact ⟨Nat.le_refl _, fun b o hb => hb, hwf, fun M _ => by simp [readF]⟩
      | cons p es₂ =>
        obtain ⟨k, v⟩ := p
        simp only [List.cons.sizeOf_spec, Prod.mk.sizeOf_spec] at hs
        have hsv : sizeOf v ≤ n := by omega
        have hse : sizeOf es₂ ≤ n := by omega
        obtain ⟨ha1, hb1, hc1, hd1⟩ := ihv v h hsv hwf
        obtain ⟨ha2, hb2, hc2, hd2⟩ := ihf es₂ (writeV h v).1 hse hc1
        rw [writeFields_cons_eq]
        refine ⟨Nat.le_trans ha1 ha2, fun b o hb => hb2 b o (hb1 b o hb), hc2, ?_⟩
        intro M hM
        simp only [List.cons.sizeOf_spec, Prod.mk.sizeOf_spec] at hM
        have hMv : sizeOf v ≤ M := by omega
        have hMe : sizeOf es₂ ≤ M := by omega
        simp only [readF]
        rw [readV_agree M _ _ _ _ hb2 (hd1 M hMv), hd2 M hMe]
    · intro xs h hs hwf
      cases xs with
      | nil =>
        rw [writeList_nil_eq]
        exact ⟨Nat.le_refl _, fun b o hb => hb, hwf, fun M _ => by simp [readL]⟩
      | cons v xs₂ =>
        simp only [List.cons.sizeOf_spec] at hs
        have hsv : sizeOf v ≤ n := by omega
        have hsx : sizeOf xs₂ ≤ n := by omega
        obtain ⟨ha1, hb1, hc1, hd1⟩ := ihv v h hsv hwf
        obtain ⟨ha2, hb2, hc2, hd2⟩ := ihl xs₂ (writeV h v).1 hsx hc1
        rw [writeList_cons_eq]
        refine ⟨Nat.le_trans ha1 ha2, fun b o hb => hb2 b o (hb1 b o hb), hc2, ?_⟩
        intro M hM
        simp only [List.cons.sizeOf_spec] at hM
        have hMv : sizeOf v ≤ M := by omega
        have hMx : sizeOf xs₂ ≤ M := by omega
        simp only [readL]
        rw [readV_agree M _ _ _ _ hb2 (hd1 M hMv), hd2 M hMx]

theorem readC_inv {n : Nat} {h : Heap} {a : Nat} {t : Config}
    (hr : readC n h a = some t) : readV n h (.ref a) = some (.node t) := by
  unfold readC at hr
  cases hv : readV n h (.ref a) with
  | none => rw [hv] at hr; simp at hr
  | some v =>
    rw [hv] at hr
    cases v with
    | node fs =>
      simp only [Option.some.injEq] at hr
      rw [hr]
    | _ => simp at hr

theorem readC_of_readV {n : Nat} {h : Heap} {a : Nat} {t : Config}
    (hr : readV n h (.ref a) = some (.node t)) : readC n h a = some t := by
  unfold readC
  rw [hr]

/-- C7: clone = deepcopy on a Config Node whose object graph is a tree
    (readable with some fuel, on a well-formed heap) always succeeds and
    returns a root a₂ at a fresh address: the clone reads back as exactly
    the same tree t (equal in every field, recursively), the original
    still reads as t (clone modified nothing), and mutating any field of
    any object at any address the clone could occupy (every address ≥
    the old allocation bound, which covers the clone root and every node
    nested in it) leaves the original's tree untouched — the two object
    graphs share no mutable state. -/
theorem clone_deep_copy (h : Heap) (a fuel : Nat) (t : Config)
    (hwf : wfH h = true) (hr : readC fuel h a = some t) :
    ∃ h₂ a₂, clone fuel h a = some (h₂, a₂) ∧
      h.next ≤ a₂ ∧
      readC (sizeOf t + 1) h₂ a₂ = some t ∧
      readC fuel h₂ a = some t ∧
      (∀ x k w, h.next ≤ x →
        readC fuel (setFieldH h₂ x k w) a = some t) := by
  obtain ⟨hA, hB, hC, hD⟩ := (write_spec (sizeOf t)).2.1 t h (Nat.le_refl _) hwf
  refine ⟨⟨((writeFields h t).1.next, (writeFields h t).2) :: (writeFields h t).1.objs,
      (writeFields h t).1.next + 1⟩, (writeFields h t).1.next, ?_, hA, ?_, ?_, ?_⟩
  · simp [clone, hr, deepcopy]
  · have hget : Heap.get
        ⟨((writeFields h t).1.next, (writeFields h t).2) :: (writeFields h t).1.objs,
          (writeFields h t).1.next + 1⟩ (writeFields h t).1.next =
        some (writeFields h t).2 := by
      simp [Heap.get, getk]
    have hpres₂ : HeapPres (writeFields h t).1
        ⟨((writeFields h t).1.next, (writeFields h t).2) :: (writeFields h t).1.objs,
          (writeFields h t).1.next + 1⟩ := by
      intro b o hbo
      have hlt := wf_get_lt hC hbo
      have hne : ¬ (writeFields h t).1.next = b := by omega
      simpa [Heap.get, getk, hne] using hbo
    have hreadf := readF_of_ptwise
      (fun x y hx => readV_agree (sizeOf t) _ _ x y hpres₂ hx)
      (hD (sizeOf t) (Nat.le_refl _))
    unfold readC
    simp [readV, hget, hreadf]
  · have hpres₂ : HeapPres (writeFields h t).1
        ⟨((writeFields h t).1.next, (writeFields h t).2) :: (writeFields h t).1.objs,
          (writeFields h t).1.next + 1⟩ := by
      intro b o hbo
      have hlt := wf_get_lt hC hbo
      have hne : ¬ (writeFields h t).1.next = b := by omega
      simpa [Heap.get, getk, hne] using hbo
    exact readC_of_readV
      (readV_agree fuel h _ _ _ (fun b o hb => hpres₂ b o (hB b o hb)) (readC_inv hr))
  · intro x k w hx
    have hpres₃ : ∀ b o, Heap.get h b = some o →
        Heap.get (setFieldH
          ⟨((writeFields h t).1.next, (writeFields h t).2) :: (writeFields h t).1.objs,
            (writeFields h t).1.next + 1⟩ x k w) b = some o := by
      intro b o hb
      have hlt : b < h.next := wf_get_lt hwf hb
      have hbp : Heap.get (writeFields h t).1 b = some o := hB b o hb
      have hltp : b < (writeFields h t).1.next := wf_get_lt hC hbp
      have hne₁ : ¬ (writeFields h t).1.next = b := by omega
      have hb₂ : Heap.get
          ⟨((writeFields h t).1.next, (writeFields h t).2) :: (writeFields h t).1.objs,
            (writeFields h t).1.next + 1⟩ b = some o := by
        simpa [Heap.get, getk, hne₁] using hbp
      unfold setFieldH
      cases hgx : Heap.get
          ⟨((writeFields h t).1.next, (writeFields h t).2) :: (writeFields h t).1.objs,
            (writeFields h t).1.next + 1⟩ x with
      | none => exact hb₂
      | some o₂ =>
        have hne₂ : x ≠ b := by omega
        show Heap.get (Heap.setObj _ x (setk o₂ k w)) b = some o
        simp only [Heap.setObj, Heap.get]
        rw [getk_setk_ne _ x b _ hne₂]
        exact hb₂
    exact readC_of_readV (readV_agree fuel h _ _ _ hpres₃ (readC_inv hr))

/-- Witness for C7 on a concrete two-object heap: object 0 with a plain
    field and a nested node at address 1. -/
theorem clone_deep_copy_witness :
    wfH ⟨[(0, [("a", HVal.int 1), ("s", HVal.ref 1)]),
          (1, [("b", HVal.int 2)])], 2⟩ = true ∧
    ∃ h₂ a₂,
      clone 3 ⟨[(0, [("a", HVal.int 1), ("s", HVal.ref 1)]),
        (1, [("b", HVal.int 2)])], 2⟩ 0 = some (h₂, a₂) ∧
      (2 : Nat) ≤ a₂ ∧
      readC (sizeOf [("a", Value.int 1), ("s", Value.node [("b", Value.int 2)])] + 1)
        h₂ a₂ = some [("a", Value.int 1), ("s", Value.node [("b", Value.int 2)])] ∧
      readC 3 h₂ 0 =
        some [("a", Value.int 1), ("s", Value.node [("b", Value.int 2)])] ∧
      (∀ x k w, 2 ≤ x → readC 3 (setFieldH h₂ x k w) 0 =
        some [("a", Value.int 1), ("s", Value.node [("b", Value.int 2)])]) :=
  ⟨rfl,
   clone_deep_copy
     ⟨[(0, [("a", HVal.int 1), ("s", HVal.ref 1)]), (1, [("b", HVal.int 2)])], 2⟩
     0 3 [("a", Value.int 1), ("s", Value.node [("b", Value.int 2)])] rfl rfl⟩

/-
In-place update invariant of the heap-level from_dict.
-/

/-- Every field of every object that holds a reference keeps that very
    reference (same address) across the transformation from h to h₂. -/
def RefsPreserved (h h₂ : Heap) : Prop :=
  ∀ x o k b, Heap.get h x = some o → getk o k = some (HVal.ref b) →
    ∃ o₂, Heap.get h₂ x = some o₂ ∧ getk o₂ k = some (HVal.ref b)

theorem refs_preserved_refl (h : Heap) : RefsPreserved h h :=
  fun _ o _ _ h1 h2 => ⟨o, h1, h2⟩

theorem refs_preserved_trans {h h₂ h₃ : Heap}
    (a : RefsPreserved h h₂) (b : RefsPreserved h₂ h₃) : RefsPreserved h h₃ := by
  intro x o k r h1 h2
  obtain ⟨o₂, m1, m2⟩ := a x o k r h1 h2
  exact b x o₂ k r m1 m2

/-- Overwriting a field whose current value is not a reference never
    changes where any reference-valued field points. -/
theorem refs_preserved_setObj (h : Heap) (a : Nat) (o : HObj) (k : String)
    (v w : HVal) (hga : Heap.get h a = some o) (hgk : getk o k = some w)
    (hw : w.isRef = false) :
    RefsPreserved h (h.setObj a (setk o k v)) := by
  intro x o₁ k₁ b h1 h2
  by_cases hx : a = x
  · subst hx
    rw [hga] at h1
    cases h1
    refine ⟨setk o k v, ?_, ?_⟩
    · show getk (setk h.objs a (setk o k v)) a = some (setk o k v)
      exact getk_setk_self _ _ _
    · by_cases hk : k = k₁
      · subst hk
        rw [hgk] at h2
        cases h2
        simp [HVal.isRef] at hw
      · rw [getk_setk_ne _ _ _ _ hk]
        exact h2
  · refine ⟨o₁, ?_, h2⟩
    show getk (setk h.objs a (setk o k v)) x = some o₁
    rw [getk_setk_ne _ _ _ _ hx]
    exact h1

theorem fromDictH_nil (h : Heap) (a : Nat) (strict : Bool) :
    fromDictH h a [] strict = ⟨h, [], none⟩ := by
  simp [fromDictH]

/-- Every step of the heap-level from_dict preserves every
    reference-valued field of every object: the recursion only mutates
    referenced objects in place and only assigns over fields whose
    current value is not a reference. -/
theorem fromDictH_refs :
    ∀ n (d : List (String × HVal)) (h : Heap) (a : Nat) (strict : Bool),
      sizeOf d ≤ n → RefsPreserved h (fromDictH h a d strict).heap := by
  intro n
  induction n with
  | zero =>
    intro d h a strict hs
    exact absurd hs (by cases d <;> simp_arith)
  | succ n ih =>
    intro d h a strict hs
    cases d with
    | nil => rw [fromDictH_nil]; exact refs_preserved_refl h
    | cons p rest =>
      obtain ⟨k, v⟩ := p
      simp only [List.cons.sizeOf_spec, Prod.mk.sizeOf_spec] at hs
      have hsr : sizeOf rest ≤ n := by omega
      cases v with
      | dict es =>
        have hse : sizeOf es ≤ n := by
          simp only [HVal.dict.sizeOf_spec] at hs
          omega
        cases hga : Heap.get h a with
        | none =>
          simp only [fromDictH, hga]
          exact refs_preserved_refl h
        | some o =>
          by_cases hat : hasattrH o k = true
          · cases hok : getk o k with
            | none =>
              simp only [fromDictH, hga, hat, hok, if_true]
              exact refs_preserved_refl h
            | some w =>
              cases w with
              | ref b =>
                simp only [fromDictH, hga, hat, hok, if_true]
                cases herr : (fromDictH h b es false).err with
                | some e => exact ih es h b false hse
                | none =>
                  exact refs_preserved_trans (ih es h b false hse)
                    (ih rest (fromDictH h b es false).heap a strict hsr)
              | _ =>
                simp only [fromDictH, hga, hat, hok, if_true]
                exact refs_preserved_trans
                  (refs_preserved_setObj h a o k (HVal.dict es) _ hga hok rfl)
                  (ih rest _ a strict hsr)
          · have hat₂ : hasattrH o k = false := by simpa using hat
            simp only [fromDictH, hga, hat₂, if_false, Bool.false_eq_true]
            cases strict with
            | false => exact ih rest h a false hsr
            | true => exact refs_preserved_refl h
      | _ =>
        cases hga : Heap.get h a with
        | none =>
          simp only [fromDictH, hga]
          exact refs_preserved_refl h
        | some o =>
          by_cases hat : hasattrH o k = true
          · cases hok : getk o k with
            | none =>
              simp only [fromDictH, hga, hat, if_true, hok]
              exact refs_preserved_refl h
            | some w =>
              cases w with
              | ref b =>
                simp only [fromDictH, hga, hat, if_true, hok]
                exact refs_preserved_refl h
              | _ =>
                simp only [fromDictH, hga, hat, if_true, hok]
                exact refs_preserved_trans
                  (refs_preserved_setObj h a o k _ _ hga hok rfl)
                  (ih rest _ a strict hsr)
          · have hat₂ : hasattrH o k = false := by simpa using hat
            simp only [fromDictH, hga, hat₂, if_false, Bool.false_eq_true]
            cases strict with
            | false => exact ih rest h a false hsr
            | true => exact refs_preserved_refl h

/-- C10: from_dict (and hence load, which just calls it on the parsed
    file) never replaces a Config-Node-valued field: for every heap,
    every target node and every input mapping, a field of any object
    that holds a reference to a nested node before the call still holds
    a reference to the very same object (same address) afterwards — the
    nested node is only ever updated in place by the recursive call,
    never swapped out or overwritten with a plain value, whether or not
    the call ends in an exception. -/
theorem from_dict_preserves_node_fields
    (h : Heap) (a : Nat) (d : List (String × HVal)) (strict : Bool)
    (x : Nat) (o : HObj) (k : String) (b : Nat)
    (hx : Heap.get h x = some o) (hk : getk o k = some (HVal.ref b)) :
    ∃ o₂, Heap.get (fromDictH h a d strict).heap x = some o₂ ∧
      getk o₂ k = some (HVal.ref b) :=
  fromDictH_refs (sizeOf d) d h a strict (Nat.le_refl _) x o k b hx hk

/-- Witness for C10: loading a mapping that updates both the nested node
    and a plain field leaves the node field of object 0 pointing at the
    same address 1. -/
theorem from_dict_preserves_node_fields_witness :
    ∃ o₂,
      Heap.get (fromDictH
        ⟨[(0, [("sub", HVal.ref 1), ("a", HVal.int 1)]),
          (1, [("c", HVal.int 2)])], 2⟩
        0 [("sub", HVal.dict [("c", HVal.int 5)]), ("a", HVal.int 9)] true).heap
        0 = some o₂ ∧
      getk o₂ "sub" = some (HVal.ref 1) :=
  from_dict_preserves_node_fields
    ⟨[(0, [("sub", HVal.ref 1), ("a", HVal.int 1)]), (1, [("c", HVal.int 2)])], 2⟩
    0 [("sub", HVal.dict [("c", HVal.int 5)]), ("a", HVal.int 9)] true
    0 [("sub", HVal.ref 1), ("a", HVal.int 1)] "sub" 1 rfl rfl
